import Mathlib

/-!
Verification of the symlink-manager program (src/program.py).

The program is embedded shallowly:
* Python strings are `List Char`; the string methods used by the program
  (`replace`, `rstrip`, `lstrip`, `startswith`, `endswith`, `os.path.join`,
  `os.path.dirname`, `os.path.basename`) are modelled char-exactly.
* The filesystem is a finite association map from component lists to nodes
  (regular file with an abstract content tag, directory, or symbolic link
  storing its raw target string).  Path resolution follows symbolic links
  with a fuel bound of 40 (the Linux limit); running out of fuel behaves
  like ELOOP, i.e. the lookup fails.
* Fallible OS calls return `Except PyErr`; an uncaught Python exception
  aborts the pass, carrying the state reached so far.
-/

set_option maxRecDepth 4000

namespace SymlinkMgr

/-! ## Python string primitives -/

abbrev Str := List Char

/-- `isPre a b` holds when `a` is a (list) prefix of `b`. -/
def isPre : Str → Str → Bool
  | [], _ => true
  | _ :: _, [] => false
  | a :: as, b :: bs => a == b && isPre as bs

/-- `a.startswith(b)` for Python strings. -/
def startsWithL (s pat : Str) : Bool := isPre pat s

/-- `a.endswith(b)` for Python strings. -/
def endsWithL (s pat : Str) : Bool := isPre pat.reverse s.reverse

/-- Python `str.rstrip(c)` for a single strip character. -/
def rstripChar (c : Char) (s : Str) : Str :=
  (s.reverse.dropWhile (fun x => x == c)).reverse

/-- Python whitespace as used by `str.lstrip()`. -/
def isSpaceC (c : Char) : Bool :=
  c == ' ' || c == '\t' || c == '\n' || c == '\r' || c == '\x0b' || c == '\x0c'

/-- Python `str.lstrip()` (no argument: strip leading whitespace). -/
def lstripWS (s : Str) : Str := s.dropWhile isSpaceC

/-- Worker for `str.replace`: replace every occurrence of the (nonempty)
pattern, scanning left to right without rescanning the replacement.  The
fuel argument makes the recursion structural; each step consumes at least
one character, so fuel `s.length` never runs out. -/
def pyReplaceGo (pat rep : Str) : Nat → Str → Str
  | _, [] => []
  | 0, s => s
  | fuel + 1, c :: cs =>
    if isPre pat (c :: cs) then rep ++ pyReplaceGo pat rep fuel (cs.drop (pat.length - 1))
    else c :: pyReplaceGo pat rep fuel cs

/-- Python `s.replace(pat, rep)` (all occurrences).  The program never calls
it with an empty pattern; for an empty pattern we return `s` unchanged. -/
def pyReplace (pat rep s : Str) : Str :=
  match pat with
  | [] => s
  | _ :: _ => pyReplaceGo pat rep s.length s

/-- Worker for `str.replace(pat, rep, 1)`: after the first replacement the
rest of the string is kept verbatim. -/
def pyReplace1Go (pat rep : Str) : Str → Str
  | [] => []
  | c :: cs =>
    if isPre pat (c :: cs) then rep ++ cs.drop (pat.length - 1)
    else c :: pyReplace1Go pat rep cs

/-- Python `s.replace(pat, rep, 1)` (at most one occurrence replaced). -/
def pyReplace1 (pat rep s : Str) : Str :=
  match pat with
  | [] => s
  | _ :: _ => pyReplace1Go pat rep s

/-- Number of (non-overlapping, left-to-right) occurrences of the nonempty
pattern, with the same fuel discipline as `pyReplaceGo`. -/
def countOccGo (pat : Str) : Nat → Str → Nat
  | _, [] => 0
  | 0, _ => 0
  | fuel + 1, c :: cs =>
    if isPre pat (c :: cs) then 1 + countOccGo pat fuel (cs.drop (pat.length - 1))
    else countOccGo pat fuel cs

/-- Occurrence count of a nonempty pattern in `s`. -/
def countOcc (pat s : Str) : Nat :=
  match pat with
  | [] => 0
  | _ :: _ => countOccGo pat s.length s

/-- `os.path.join(a, b)` for POSIX paths (two arguments, as the program uses it). -/
def pjoin (a b : Str) : Str :=
  if startsWithL b "/".data then b
  else if a == [] || endsWithL a "/".data then a ++ b
  else a ++ "/".data ++ b

/-- `os.path.dirname` for POSIX paths. -/
def dirnameStr (p : Str) : Str :=
  match p.reverse.findIdx? (fun c => c == '/') with
  | none => []
  | some i =>
    let head := p.take (p.length - i)
    if head.all (fun c => c == '/') then head else rstripChar '/' head

/-- `os.path.basename` for POSIX paths. -/
def basenameStr (p : Str) : Str :=
  match p.reverse.findIdx? (fun c => c == '/') with
  | none => p
  | some i => p.drop (p.length - i)

/-! ## The program's pure path functions (src/program.py lines 14-17, 52-54, 95-97) -/

/-- `normalize_path` from src/program.py: replace the token `"HOME"` by the
home-directory value, then double every `'-'`, then turn every `'/'` into `'-'`.
The home directory (the global `HOME` in the source) is passed explicitly. -/
def normalize_path (home path : Str) : Str :=
  pyReplace "/".data "-".data (pyReplace "-".data "--".data (pyReplace "HOME".data home path))

/-- The separator-escaping tail of `normalize_path` (the two `replace` calls
that run after the home-token substitution). -/
def escapeSeps (s : Str) : Str :=
  pyReplace "/".data "-".data (pyReplace "-".data "--".data s)

/-- The backing-store leaf name used for `dst`: `normalize_path(...).rstrip("-")`
as in src/program.py lines 54 and 97. -/
def safeName (home path : Str) : Str :=
  rstripChar '-' (normalize_path home path)

/-- The `(src, dst, is_dir)` triple `apply_additions` derives from a raw
declaration (src/program.py lines 51-54). -/
def addDerive (home base raw : Str) : Str × Str × Bool :=
  let isD := endsWithL raw "/".data
  let basePath := rstripChar '/' (pyReplace "HOME/".data [] raw)
  (pjoin home basePath, pjoin base (safeName home basePath), isD)

/-- The `(src, dst, is_dir)` triple `apply_removals` derives from a raw
declaration that starts with the removal marker (src/program.py lines 93-97):
drop the first character, strip leading whitespace, remove the *first*
occurrence of `"HOME/"`, then derive as in the addition pass. -/
def remDerive (home base raw : Str) : Str × Str × Bool :=
  let isD := endsWithL raw "/".data
  let basePath := rstripChar '/' (pyReplace1 "HOME/".data [] (lstripWS (raw.drop 1)))
  (pjoin home basePath, pjoin base (safeName home basePath), isD)

/-! ## Filesystem model

A filesystem is a finite association map from *component lists* (the result
of splitting an absolute path at `'/'`) to nodes.  A directory's children
are the keys that extend it by one component; moving a directory moves the
whole subtree.  Symbolic links store their raw target string, exactly what
`os.readlink` returns, so the program's string comparison
`os.readlink(src) == dst` is modelled verbatim. -/

/-- A component list: an absolute path split at `'/'` (empty components dropped). -/
abbrev Comps := List Str

/-- A filesystem node. -/
inductive Node where
  | file (content : Nat)
  | dir
  | symlink (target : Str)
deriving DecidableEq, Repr

/-- The filesystem: association list from canonical component lists to nodes. -/
abbrev FS := List (Comps × Node)

/-- Split an absolute path string into its components, dropping empty ones
(so `"/a//b"` and `"/a/b"` denote the same location, as for POSIX `stat`). -/
def splitGo : Str → Str → Comps
  | [], acc => if acc.isEmpty then [] else [acc.reverse]
  | c :: cs, acc =>
    if c == '/' then (if acc.isEmpty then splitGo cs [] else acc.reverse :: splitGo cs [])
    else splitGo cs (c :: acc)

/-- Components of a path string. -/
def splitPath (p : Str) : Comps := splitGo p []

/-- First-match lookup in the association list. -/
def lookupFS (fs : FS) (k : Comps) : Option Node :=
  match fs with
  | [] => none
  | (k', v) :: rest => if k' = k then some v else lookupFS rest k

/-- Remove every entry at key `k`. -/
def eraseKey (k : Comps) : FS → FS
  | [] => []
  | (k', v) :: rest => if k' = k then eraseKey k rest else (k', v) :: eraseKey k rest

/-- Insert (or overwrite) the entry at key `k`. -/
def insertKV (k : Comps) (v : Node) (fs : FS) : FS := (k, v) :: eraseKey k fs

/-- `compsLe a b`: `a` is an initial segment of `b` (ancestor-or-equal key). -/
def compsLe : Comps → Comps → Bool
  | [], _ => true
  | _ :: _, [] => false
  | a :: as, b :: bs => a == b && compsLe as bs

/-- Rewrite every key under `a` to the corresponding key under `b`
(the subtree-carrying effect of a same-device `os.rename`). -/
def relocateSub (a b : Comps) (fs : FS) : FS :=
  fs.map (fun kv => if compsLe a kv.1 then (b ++ kv.1.drop a.length, kv.2) else kv)

/-- Does the directory key `k` have an immediate child entry?
(`os.listdir(k) != []`.) -/
def hasChildKey (fs : FS) (k : Comps) : Bool :=
  fs.any (fun kv => compsLe k kv.1 && kv.1.length == k.length + 1)

/-- The symlink-following budget: Linux resolves at most 40 links (ELOOP). -/
def FUEL : Nat := 40

/-- Outcome of walking components through real directories until the walk
finishes, hits a symbolic link, or fails. -/
inductive WalkRes where
  | done (q : Comps)
  | jump (t : Str) (rest : Comps)
  | fail
deriving DecidableEq

/-- Walk `rest` starting from the real directory path `acc`: descend real
directories, stop at the first symbolic link (reporting its target and the
components still to walk), succeed at the end or at a final file, and fail
on a missing entry or a file in an intermediate position. -/
def walkGo (fs : FS) : Comps → Comps → WalkRes
  | acc, [] => .done acc
  | acc, c :: rest =>
    match lookupFS fs (acc ++ [c]) with
    | some (.symlink t) => .jump t rest
    | some .dir => walkGo fs (acc ++ [c]) rest
    | some (.file _) => if rest.isEmpty then .done (acc ++ [c]) else .fail
    | none => .fail

/-- Resolve `acc ++ rest` where `acc` is already a real (fully resolved)
directory path: follow symbolic links (each link costs one unit of fuel,
and a link target restarts resolution from the root, as targets are
absolute strings here); intermediate components must be directories; the
result is the real path of an existing node together with the remaining
fuel.  `none` models ENOENT / ENOTDIR / ELOOP, for all of which the
`os.path` predicates used by the program return False. -/
def resolveComps (fs : FS) : Nat → Comps → Comps → Option (Comps × Nat)
  | fuel, acc, l =>
    match walkGo fs acc l with
    | .done q => some (q, fuel)
    | .fail => none
    | .jump t rest =>
      if t.isEmpty then none   -- an empty link target gives ENOENT
      else
        match fuel with
        | 0 => none
        | fuel' + 1 => resolveComps fs fuel' [] (splitPath t ++ rest)

/-- Is the real key `q` a directory (the implicit root `[]` counts)? -/
def isDirKey (fs : FS) (q : Comps) : Bool :=
  match q with
  | [] => true
  | _ :: _ =>
    match lookupFS fs q with
    | some .dir => true
    | _ => false

/-- `lstat`-style resolution: resolve the parent fully (it must be a real
directory) and return the key at which the final component lives, without
following a link at the final component. -/
def lresolveKey (fs : FS) (p : Str) : Option Comps :=
  match (splitPath p).getLast? with
  | none => none
  | some lastC =>
    match resolveComps fs FUEL [] (splitPath p).dropLast with
    | some (q, _) => if isDirKey fs q then some (q ++ [lastC]) else none
    | none => none

/-- `os.path.exists` (follows symbolic links; False on any resolution error). -/
def pathExists (fs : FS) (p : Str) : Bool :=
  if p.isEmpty then false
  else (resolveComps fs FUEL [] (splitPath p)).isSome

/-- `os.path.isdir` (follows symbolic links). -/
def isDirPath (fs : FS) (p : Str) : Bool :=
  if p.isEmpty then false
  else
    match resolveComps fs FUEL [] (splitPath p) with
    | some (q, _) => isDirKey fs q
    | none => false

/-- `os.path.isfile` (follows symbolic links). -/
def isFilePath (fs : FS) (p : Str) : Bool :=
  match resolveComps fs FUEL [] (splitPath p) with
  | some (q, _) =>
    match lookupFS fs q with
    | some (.file _) => true
    | _ => false
  | none => false

/-- `os.readlink` as a total function: `some target` iff the final component
is a symbolic link (`os.path.islink`). -/
def readlinkPath (fs : FS) (p : Str) : Option Str :=
  match lresolveKey fs p with
  | some k =>
    match lookupFS fs k with
    | some (.symlink t) => some t
    | _ => none
  | none => none

/-- `os.path.islink`. -/
def islinkPath (fs : FS) (p : Str) : Bool := (readlinkPath fs p).isSome

/-- The OS errors that the program can crash with (it catches none of them). -/
inductive PyErr where
  | fileNotFound
  | fileExists
  | isADirectory
  | notADirectory
  | dirNotEmpty
  | invalidMove
  | destExists
  | tooManyLinks
  | statFailed
deriving DecidableEq, Repr

/-- `os.symlink(target, link)`: fails if the link path already exists
(even as a symlink) or its parent cannot be resolved to a directory. -/
def os_symlink (fs : FS) (target link : Str) : Except PyErr FS :=
  match lresolveKey fs link with
  | none => .error .fileNotFound
  | some k =>
    match lookupFS fs k with
    | some _ => .error .fileExists
    | none => .ok (insertKV k (.symlink target) fs)

/-- `os.remove`: removes a file or a symlink (not following it); fails on
directories and missing paths. -/
def os_remove (fs : FS) (p : Str) : Except PyErr FS :=
  match lresolveKey fs p with
  | none => .error .fileNotFound
  | some k =>
    match lookupFS fs k with
    | some .dir => .error .isADirectory
    | some _ => .ok (eraseKey k fs)
    | none => .error .fileNotFound

/-- `os.rmdir`: removes an empty directory. -/
def os_rmdir (fs : FS) (p : Str) : Except PyErr FS :=
  match lresolveKey fs p with
  | none => .error .fileNotFound
  | some k =>
    match lookupFS fs k with
    | some .dir => if hasChildKey fs k then .error .dirNotEmpty else .ok (eraseKey k fs)
    | some _ => .error .notADirectory
    | none => .error .fileNotFound

/-- Same-device `os.rename`: carries the whole subtree; an existing
destination is replaced when types allow it (file over file, empty
directory over directory); moving a tree into itself fails. -/
def os_rename (fs : FS) (src dst : Str) : Except PyErr FS :=
  match lresolveKey fs src, lresolveKey fs dst with
  | some ks, some kd =>
    match lookupFS fs ks with
    | none => .error .fileNotFound
    | some ns =>
      if ks = kd then .ok fs
      else if compsLe ks kd then .error .invalidMove
      else
        match lookupFS fs kd with
        | none => .ok (relocateSub ks kd fs)
        | some nd =>
          match ns, nd with
          | .dir, .dir =>
            if hasChildKey fs kd then .error .dirNotEmpty
            else .ok (relocateSub ks kd (eraseKey kd fs))
          | .dir, _ => .error .notADirectory
          | _, .dir => .error .isADirectory
          | _, _ => .ok (relocateSub ks kd (eraseKey kd fs))
  | _, _ => .error .fileNotFound

/-- `shutil.move` (same-device case): if the destination is an existing
directory the source is moved *into* it under its base name, failing if
that occupied; otherwise it renames directly. -/
def shutil_move (fs : FS) (src dst : Str) : Except PyErr FS :=
  if isDirPath fs dst then
    let realDst := pjoin dst (basenameStr src)
    if pathExists fs realDst then .error .destExists
    else os_rename fs src realDst
  else os_rename fs src dst

/-- Worker for `os.makedirs(..., exist_ok=True)`: walk the components from
the root, creating missing directories, following symbolic links, and
failing on a file in the way. -/
def mkGo (fs : FS) (acc : Comps) : Comps → Except PyErr FS
  | [] => .ok fs
  | c :: rest =>
    match lookupFS fs (acc ++ [c]) with
    | none => mkGo (insertKV (acc ++ [c]) .dir fs) (acc ++ [c]) rest
    | some .dir => mkGo fs (acc ++ [c]) rest
    | some (.file _) => .error (if rest.isEmpty then .fileExists else .notADirectory)
    | some (.symlink t) =>
      match resolveComps fs FUEL [] (splitPath t) with
      | some (q, _) =>
        if isDirKey fs q then mkGo fs q rest
        else .error (if rest.isEmpty then .fileExists else .notADirectory)
      | none => .error .fileNotFound

/-- `os.makedirs(p, exist_ok=True)`. -/
def os_makedirs (fs : FS) (p : Str) : Except PyErr FS := mkGo fs [] (splitPath p)

/-- `open(p, 'a').close()`: create an empty file if nothing is there,
no-op on an existing file, follow a symlink at the final component
(creating the target of a dangling link), fail on a directory. -/
def openAppend (fs : FS) : Nat → Str → Except PyErr FS
  | 0, _ => .error .tooManyLinks
  | fuel + 1, p =>
    match lresolveKey fs p with
    | none => .error .fileNotFound
    | some k =>
      match lookupFS fs k with
      | none => .ok (insertKV k (.file 0) fs)
      | some (.file _) => .ok fs
      | some .dir => .error .isADirectory
      | some (.symlink t) => openAppend fs fuel t

/-! ## Device guard and conflict check (src/program.py lines 19-42) -/

/-- Ambient data the program reads from its environment: the home directory
(the global `HOME`), the device identifier of each real path (`st_dev`,
fixed by the mount table), and the interactive confirmation provider
(`input().strip().lower() == "y"`). -/
structure Env where
  home : Str
  dev : Comps → Nat
  ask : Str → Str → Bool

/-- `os.stat(p).st_dev`; raises when the path does not resolve. -/
def stat_dev (env : Env) (fs : FS) (p : Str) : Except PyErr Nat :=
  match resolveComps fs FUEL [] (splitPath p) with
  | some (q, _) => .ok (env.dev q)
  | none => .error .statFailed

/-- `is_same_device` from src/program.py lines 19-23. -/
def is_same_device (env : Env) (fs : FS) (p1 p2 : Str) : Except PyErr Bool :=
  match stat_dev env fs p1, stat_dev env fs p2 with
  | .ok d1, .ok d2 => .ok (d1 == d2)
  | .error e, _ => .error e
  | _, .error e => .error e

/-- `confirm_move` from src/program.py lines 25-31: prompt only when the
source and the destination's parent live on different devices. -/
def confirm_move (env : Env) (fs : FS) (src dst : Str) : Except PyErr Bool :=
  match is_same_device env fs src (dirnameStr dst) with
  | .error e => .error e
  | .ok true => .ok true
  | .ok false => .ok (env.ask src dst)

/-- Status and warning messages the program prints, by shape. -/
inductive Report where
  | warnNeedDir (src : Str)
  | warnNeedFile (src : Str)
  | alreadyLinked (src dst : Str)
  | wrongLink (src : Str)
  | dstOccupied (dst src : Str)
  | cancelledAdd (src : Str)
  | linkCreated (src dst : Str)
  | linkRemoved (src dst : Str)
  | cancelledRestore (dst src : Str)
  | removedDstDir (dst : Str)
  | notCorrectLink (src : Str)
deriving DecidableEq, Repr

/-- `handle_path_conflict` from src/program.py lines 33-42, paired with the
warning it prints when it rejects a declaration. -/
def handle_path_conflict (fs : FS) (src : Str) (isD : Bool) : Bool × Option Report :=
  if pathExists fs src then
    if isD && !(isDirPath fs src) then (false, some (.warnNeedDir src))
    else if !isD && !(isFilePath fs src) then (false, some (.warnNeedFile src))
    else (true, none)
  else (true, none)

/-! ## Configuration, tasks and the two passes (src/program.py lines 44-123) -/

/-- One storage: its base directory and its declaration keys, in file order
(the `ConfigParser` preserves insertion order and, with `optionxform = str`,
key case). -/
structure Storage where
  base : Str
  decls : List Str
deriving DecidableEq, Repr

/-- The configuration: the storages in `dirs`-section order. -/
abbrev Config := List Storage

/-- A reconciliation task: `(src, dst, is_dir)`. -/
structure Task where
  src : Str
  dst : Str
  isDir : Bool
deriving DecidableEq, Repr

/-- Mutable program state: the filesystem plus everything printed so far. -/
structure Sys where
  fs : FS
  log : List Report
deriving DecidableEq, Repr

/-- Append one printed line. -/
def logAdd (s : Sys) (r : Report) : Sys := ⟨s.fs, s.log ++ [r]⟩

/-- One addition-pass declaration (src/program.py lines 48-59): skipped when
marked for removal, otherwise derived and filtered by the conflict check. -/
def buildAddOne (env : Env) (fs : FS) (base raw : Str) : Option Task × Option Report :=
  if startsWithL raw "-".data then (none, none)
  else
    let d := addDerive env.home base raw
    match handle_path_conflict fs d.1 d.2.2 with
    | (true, _) => (some ⟨d.1, d.2.1, d.2.2⟩, none)
    | (false, r) => (none, r)

/-- One removal-pass declaration (src/program.py lines 90-102). -/
def buildRemOne (env : Env) (fs : FS) (base raw : Str) : Option Task × Option Report :=
  if startsWithL raw "-".data then
    let d := remDerive env.home base raw
    match handle_path_conflict fs d.1 d.2.2 with
    | (true, _) => (some ⟨d.1, d.2.1, d.2.2⟩, none)
    | (false, r) => (none, r)
  else (none, none)

/-- Collect tasks and warnings over one storage's declarations, in order. -/
def buildDecls (one : Str → Option Task × Option Report) : List Str → List Task × List Report
  | [] => ([], [])
  | raw :: rest =>
    let r := one raw
    let rs := buildDecls one rest
    (r.1.toList ++ rs.1, r.2.toList ++ rs.2)

/-- Collect tasks and warnings over all storages, in order. -/
def buildStorages (one : Str → Str → Option Task × Option Report) : Config → List Task × List Report
  | [] => ([], [])
  | st :: rest =>
    let here := buildDecls (one st.base) st.decls
    let there := buildStorages one rest
    (here.1 ++ there.1, here.2 ++ there.2)

/-- The addition pass's task list and conflict warnings. -/
def buildAddTasks (env : Env) (fs : FS) (cfg : Config) : List Task × List Report :=
  buildStorages (fun base raw => buildAddOne env fs base raw) cfg

/-- The removal pass's task list and conflict warnings. -/
def buildRemTasks (env : Env) (fs : FS) (cfg : Config) : List Task × List Report :=
  buildStorages (fun base raw => buildRemOne env fs base raw) cfg

/-- Sort key: `len(src)` (Python sorts the task tuples by this key only). -/
def lenSrc (t : Task) : Nat := t.src.length

/-- Stable insertion: `a` goes after every already-placed `b` with
`stayBefore b a`, and before the first other one — so, with a strict key
comparison, equal keys keep their input order, as Python's stable sort does. -/
def insertBy (stayBefore : Task → Task → Bool) (a : Task) : List Task → List Task
  | [] => [a]
  | b :: bs => if stayBefore b a then b :: insertBy stayBefore a bs else a :: b :: bs

/-- Stable sort by the `stayBefore` strict comparison (insertion sort, a
stable sort like Python's `sorted`). -/
def ssortBy (stayBefore : Task → Task → Bool) : List Task → List Task
  | [] => []
  | a :: as => insertBy stayBefore a (ssortBy stayBefore as)

/-- `sorted(..., key=len(src), reverse=True)`: longer strictly first. -/
def descBefore (b a : Task) : Bool := lenSrc a < lenSrc b

/-- `sorted(..., key=len(src))`: shorter strictly first. -/
def ascBefore (b a : Task) : Bool := lenSrc b < lenSrc a

/-- One addition-pass task (src/program.py lines 62-84).  Note the wrong-
symlink branch has no `continue` in the source: after printing the error it
falls through to `os.symlink(dst, src)`, which raises `FileExistsError`. -/
def addStep (env : Env) (s : Sys) (t : Task) : Except (PyErr × Sys) Sys :=
  if islinkPath s.fs t.src then
    if readlinkPath s.fs t.src == some t.dst then
      .ok (logAdd s (.alreadyLinked t.src t.dst))
    else
      let s1 := logAdd s (.wrongLink t.src)
      match os_symlink s1.fs t.dst t.src with
      | .error e => .error (e, s1)
      | .ok fs' => .ok (logAdd ⟨fs', s1.log⟩ (.linkCreated t.src t.dst))
  else if pathExists s.fs t.src then
    let s1 := if pathExists s.fs t.dst then logAdd s (.dstOccupied t.dst t.src) else s
    match confirm_move env s1.fs t.src t.dst with
    | .error e => .error (e, s1)
    | .ok false => .ok (logAdd s1 (.cancelledAdd t.src))
    | .ok true =>
      match shutil_move s1.fs t.src t.dst with
      | .error e => .error (e, s1)
      | .ok fs2 =>
        match os_symlink fs2 t.dst t.src with
        | .error e => .error (e, ⟨fs2, s1.log⟩)
        | .ok fs3 => .ok (logAdd ⟨fs3, s1.log⟩ (.linkCreated t.src t.dst))
  else
    match (if t.isDir then os_makedirs s.fs t.dst else openAppend s.fs FUEL t.dst) with
    | .error e => .error (e, s)
    | .ok fs2 =>
      match os_symlink fs2 t.dst t.src with
      | .error e => .error (e, ⟨fs2, s.log⟩)
      | .ok fs3 => .ok (logAdd ⟨fs3, s.log⟩ (.linkCreated t.src t.dst))

/-- `os.listdir(p) != []` for the cleanup test. -/
def dirNonEmpty (fs : FS) (p : Str) : Bool :=
  match resolveComps fs FUEL [] (splitPath p) with
  | some (q, _) => hasChildKey fs q
  | none => false

/-- The backing-directory cleanup at the end of a removal-pass task
(src/program.py lines 118-121). -/
def removeCleanup (s : Sys) (t : Task) : Except (PyErr × Sys) Sys :=
  if isDirPath s.fs t.dst && !(dirNonEmpty s.fs t.dst) then
    match os_rmdir s.fs t.dst with
    | .error e => .error (e, s)
    | .ok fs' => .ok ⟨fs', s.log ++ [.removedDstDir t.dst]⟩
  else .ok s

/-- One removal-pass task (src/program.py lines 105-123). -/
def remStep (env : Env) (s : Sys) (t : Task) : Except (PyErr × Sys) Sys :=
  if islinkPath s.fs t.src && (readlinkPath s.fs t.src == some t.dst) then
    match os_remove s.fs t.src with
    | .error e => .error (e, s)
    | .ok fs1 =>
      let s1 := logAdd ⟨fs1, s.log⟩ (.linkRemoved t.src t.dst)
      if pathExists fs1 t.dst then
        match confirm_move env fs1 t.dst t.src with
        | .error e => .error (e, s1)
        | .ok false => .ok (logAdd s1 (.cancelledRestore t.dst t.src))
        | .ok true =>
          match os_makedirs fs1 (dirnameStr t.src) with
          | .error e => .error (e, s1)
          | .ok fs2 =>
            match shutil_move fs2 t.dst t.src with
            | .error e => .error (e, ⟨fs2, s1.log⟩)
            | .ok fs3 => removeCleanup ⟨fs3, s1.log⟩ t
      else removeCleanup s1 t
  else .ok (logAdd s (.notCorrectLink t.src))

/-- Run the per-task loop; an uncaught exception aborts the whole pass. -/
def runTasks (step : Sys → Task → Except (PyErr × Sys) Sys) : Sys → List Task → Except (PyErr × Sys) Sys
  | s, [] => .ok s
  | s, t :: ts =>
    match step s t with
    | .error e => .error e
    | .ok s' => runTasks step s' ts

/-- `apply_additions` from src/program.py lines 44-84: build and filter the
tasks, then process them deepest (longest `src`) first. -/
def apply_additions (env : Env) (cfg : Config) (fs : FS) : Except (PyErr × Sys) Sys :=
  let b := buildAddTasks env fs cfg
  runTasks (addStep env) ⟨fs, b.2⟩ (ssortBy descBefore b.1)

/-- `apply_removals` from src/program.py lines 86-123: build and filter the
tasks, then process them shallowest (shortest `src`) first. -/
def apply_removals (env : Env) (cfg : Config) (fs : FS) : Except (PyErr × Sys) Sys :=
  let b := buildRemTasks env fs cfg
  runTasks (remStep env) ⟨fs, b.2⟩ (ssortBy ascBefore b.1)

/-! ## Concrete instances used by the claim theorems -/

/-- A benign environment: home `/root`, one device, confirmations accepted. -/
def envY : Env := ⟨"/root".data, fun _ => 0, fun _ _ => true⟩

/-- An environment where `/mnt` is a different device and the operator
declines every confirmation. -/
def envN : Env := ⟨"/root".data, fun q => if q = ["mnt".data] then 1 else 0, fun _ _ => false⟩

/-- Home and storage base exist; `/root/a` is a symlink to a foreign target
and `/root/b` is a plain file. -/
def fsC1 : FS :=
  [(["root".data], .dir), (["mnt".data], .dir),
   (["root".data, "a".data], .symlink "/elsewhere".data),
   (["root".data, "b".data], .file 5)]

/-- One storage at `/mnt` declaring `a` and `b`. -/
def cfgC1 : Config := [⟨"/mnt".data, ["a".data, "b".data]⟩]

/-- Home and storage base exist and nothing else. -/
def fsRT0 : FS := [(["root".data], .dir), (["mnt".data], .dir)]

/-- One storage at `/mnt` declaring `a` for addition. -/
def cfgAddA : Config := [⟨"/mnt".data, ["a".data]⟩]

/-- One storage at `/mnt` declaring `a` for removal. -/
def cfgRemA : Config := [⟨"/mnt".data, ["-a".data]⟩]

/-- Home, storage base, and a plain file `/root/a`. -/
def fsC3 : FS := [(["root".data], .dir), (["mnt".data], .dir), (["root".data, "a".data], .file 7)]

/-- Home with a plain file `a` and a directory `b`. -/
def fsC8 : FS := [(["h".data], .dir), (["h".data, "a".data], .file 1), (["h".data, "b".data], .dir)]

/-- The addition pass followed by the removal pass, propagating a crash. -/
def roundTrip (env : Env) (cfgA cfgR : Config) (fs : FS) : Except (PyErr × Sys) Sys :=
  match apply_additions env cfgA fs with
  | .ok s1 => apply_removals env cfgR s1.fs
  | .error e => .error e

/-! ## Derived notions for the reconciliation proofs -/

/-- Source components of a task. -/
def sC (t : Task) : Comps := splitPath t.src

/-- Destination components of a task. -/
def dC (t : Task) : Comps := splitPath t.dst

/-- Extensional equality of filesystems: same node at every key. -/
def fsEq (f g : FS) : Prop := ∀ k : Comps, lookupFS f k = lookupFS g k

/-- The pure effect of one successful addition task: move the `src` subtree
to `dst` and leave a symlink at `src`. -/
def addExplicit (t : Task) (fs : FS) : FS :=
  insertKV (sC t) (.symlink t.dst) (relocateSub (sC t) (dC t) fs)

/-- The pure effect of one successful removal task: drop the symlink at
`src` and move the `dst` subtree back. -/
def remExplicit (t : Task) (fs : FS) : FS :=
  relocateSub (dC t) (sC t) (eraseKey (sC t) fs)

/-- All addition effects in processing order. -/
def addAllExplicit (ts : List Task) (fs : FS) : FS :=
  ts.foldl (fun acc t => addExplicit t acc) fs

/-- Canonical absolute-path string of a component list: `joinC [a, b]` is
`"/a/b"`. -/
def joinC : Comps → Str
  | [] => []
  | c :: cs => '/' :: c ++ joinC cs

/-- A canonical absolute path: nonempty component list that round-trips
through `splitPath`/`joinC`. -/
def canonB (p : Str) : Bool :=
  !(splitPath p).isEmpty && (p == joinC (splitPath p))

/-- Every strict ancestor key of `cs` holds a directory node. -/
def PrefixesDir (fs : FS) (cs : Comps) : Prop :=
  ∀ j, 0 < j → j < cs.length → lookupFS fs (cs.take j) = some Node.dir

/-- Decidable version of `PrefixesDir`. -/
def prefDirB (fs : FS) (cs : Comps) : Bool :=
  (List.range cs.length).all (fun j => (j == 0) || (lookupFS fs (cs.take j) == some Node.dir))


/-! ## Bundles and the lookup formula for the reconciliation proofs -/

def lookAddR (fs0 : FS) : List Task → Comps → Option Node
  | [], k => lookupFS fs0 k
  | t :: rs, k =>
    if k = sC t then some (.symlink t.dst)
    else if compsLe (dC t) k then lookAddR fs0 rs (sC t ++ k.drop (dC t).length)
    else if compsLe (sC t) k then none
    else lookAddR fs0 rs k

def sepB (t u : Task) : Bool :=
  !compsLe (sC u) (sC t) && !compsLe (sC t) (sC u) &&
  !compsLe (dC u) (dC t) && !compsLe (dC t) (dC u) &&
  !compsLe (dC u) (sC t) && !compsLe (sC t) (dC u) &&
  !compsLe (dC t) (sC u) && !compsLe (sC u) (dC t)

def dstsFree (fs : FS) (ts : List Task) : Prop :=
  ∀ t ∈ ts, ∀ kv ∈ fs, compsLe (dC t) kv.1 = false

def dstsNoSrc (ts : List Task) : Prop :=
  ∀ t ∈ ts, ∀ u ∈ ts, compsLe (dC t) (sC u) = false

def dstsPW (ts : List Task) : Prop :=
  List.Pairwise (fun t u => compsLe (dC t) (dC u) = false ∧ compsLe (dC u) (dC t) = false) ts

def typeOk : Bool → Option Node → Bool
  | true, some .dir => true
  | false, some (.file _) => true
  | _, _ => false

structure AddReady (fs : FS) (t : Task) : Prop where
  srcCanon : canonB t.src = true
  dstCanon : canonB t.dst = true
  srcDirs : PrefixesDir fs (sC t)
  dstDirs : PrefixesDir fs (dC t)
  srcType : typeOk t.isDir (lookupFS fs (sC t)) = true
  dstFree : ∀ kv ∈ fs, compsLe (dC t) kv.1 = false
  sepSD : compsLe (sC t) (dC t) = false
  sepDS : compsLe (dC t) (sC t) = false
  dstDeep : 2 ≤ (dC t).length

structure RemReady (fs : FS) (t : Task) : Prop where
  srcCanon : canonB t.src = true
  dstCanon : canonB t.dst = true
  srcDirs : PrefixesDir fs (sC t)
  dstDirs : PrefixesDir fs (dC t)
  srcLink : lookupFS fs (sC t) = some (.symlink t.dst)
  dstType : typeOk t.isDir (lookupFS fs (dC t)) = true
  srcOnly : ∀ k, compsLe (sC t) k = true → ¬ k = sC t → lookupFS fs k = none
  sepSD : compsLe (sC t) (dC t) = false
  sepDS : compsLe (dC t) (sC t) = false
  srcDeep : 2 ≤ (sC t).length
  dstDeep : 2 ≤ (dC t).length


def addReadyB (fs : FS) (t : Task) : Bool :=
  canonB t.src && canonB t.dst && prefDirB fs (sC t) && prefDirB fs (dC t) &&
  typeOk t.isDir (lookupFS fs (sC t)) &&
  fs.all (fun kv => !compsLe (dC t) kv.1) &&
  !compsLe (sC t) (dC t) && !compsLe (dC t) (sC t) &&
  decide (2 ≤ (dC t).length) && decide (2 ≤ (sC t).length)

def pairSepB : List Task → Bool
  | [] => true
  | t :: rest => rest.all (fun u => sepB t u) && pairSepB rest


/-- Ordered separation for the reconciliation passes: for `a` processed
before `b` in the removal (ascending) order, everything is path-prefix
separated except that `a`'s source may be an ancestor of `b`'s source
(nested declarations). -/
def nestSepB (a b : Task) : Bool :=
  !compsLe (sC b) (sC a) && !compsLe (dC a) (dC b) && !compsLe (dC b) (dC a) &&
  !compsLe (dC a) (sC b) && !compsLe (sC b) (dC a) && !compsLe (dC b) (sC a) &&
  !compsLe (sC a) (dC b)

/-- `nestSepB` between every ordered pair of the list. -/
def pairNestB : List Task → Bool
  | [] => true
  | t :: rest => rest.all (fun u => nestSepB t u) && pairNestB rest

/-- Home with a directory `a` containing a file `b` (nested declarations). -/
def fsNest : FS :=
  [(["root".data], .dir), (["mnt".data], .dir),
   (["root".data, "a".data], .dir), (["root".data, "a".data, "b".data], .file 3)]

/-- One storage at `/mnt` declaring the nested pair `a/` and `a/b`. -/
def cfgNestA : Config := [⟨"/mnt".data, ["a/".data, "a/b".data]⟩]

/-- The matching removal declarations for the nested pair. -/
def cfgNestR : Config := [⟨"/mnt".data, ["-a/".data, "-a/b".data]⟩]


/-! ## String-function lemmas -/

theorem isPre_refl (l : Str) : isPre l l = true := by
  induction l with
  | nil => rfl
  | cons c cs ih => simp [isPre, ih]

theorem pyReplaceGo_nil (pat rep : Str) (fuel : Nat) : pyReplaceGo pat rep fuel [] = [] := by
  cases fuel <;> rfl

theorem pyReplaceGo_zero (pat rep : Str) (s : Str) : pyReplaceGo pat rep 0 s = s := by
  cases s <;> rfl

theorem countOccGo_nil (pat : Str) (fuel : Nat) : countOccGo pat fuel [] = 0 := by
  cases fuel <;> rfl

theorem pyReplace_self (pat rep : Str) (h : pat ≠ []) : pyReplace pat rep pat = rep := by
  match pat with
  | [] => exact absurd rfl h
  | p :: ps =>
    show pyReplaceGo (p :: ps) rep (p :: ps).length (p :: ps) = rep
    rw [List.length_cons, pyReplaceGo]
    simp only [isPre_refl, if_pos, List.length_cons, Nat.add_sub_cancel, List.drop_length,
      pyReplaceGo_nil, List.append_nil]

theorem countOccGo_zero_noop (pat rep : Str) :
    ∀ fuel s, countOccGo pat fuel s = 0 → pyReplaceGo pat rep fuel s = s := by
  intro fuel
  induction fuel with
  | zero => intro s _; exact pyReplaceGo_zero pat rep s
  | succ f ih =>
    intro s h
    cases s with
    | nil => exact pyReplaceGo_nil pat rep _
    | cons c cs =>
      rw [countOccGo] at h
      rw [pyReplaceGo]
      by_cases hp : isPre pat (c :: cs) = true
      · rw [if_pos hp] at h; omega
      · rw [if_neg hp] at h ⊢
        rw [ih cs h]

theorem countOcc_zero_noop (pat rep s : Str) (h : countOcc pat s = 0) :
    pyReplace pat rep s = s := by
  match pat with
  | [] => rfl
  | p :: ps => exact countOccGo_zero_noop (p :: ps) rep s.length s h

theorem pyReplaceGo_one (pat rep : Str) :
    ∀ fuel s, s.length ≤ fuel → countOccGo pat fuel s ≤ 1 →
      pyReplaceGo pat rep fuel s = pyReplace1Go pat rep s := by
  intro fuel
  induction fuel with
  | zero =>
    intro s hl _
    have : s = [] := List.eq_nil_of_length_eq_zero (Nat.le_zero.mp hl)
    subst this; rfl
  | succ f ih =>
    intro s hl h
    cases s with
    | nil => rw [pyReplaceGo_nil]; rfl
    | cons c cs =>
      rw [countOccGo] at h
      rw [pyReplaceGo, pyReplace1Go]
      by_cases hp : isPre pat (c :: cs) = true
      · rw [if_pos hp] at h ⊢
        rw [if_pos hp]
        have h0 : countOccGo pat f (cs.drop (pat.length - 1)) = 0 := by omega
        rw [countOccGo_zero_noop pat rep f _ h0]
      · rw [if_neg hp] at h ⊢
        rw [if_neg hp]
        have : cs.length ≤ f := by
          simp only [List.length_cons] at hl; omega
        rw [ih cs this h]

theorem pyReplace_one (pat rep s : Str) (h : countOcc pat s ≤ 1) :
    pyReplace pat rep s = pyReplace1 pat rep s := by
  match pat with
  | [] => rfl
  | p :: ps => exact pyReplaceGo_one (p :: ps) rep s.length s (Nat.le_refl _) h

/-- Replacement of a single character by a single character is a `map`. -/
theorem pyReplaceGo_single (c d : Char) :
    ∀ fuel s, s.length ≤ fuel →
      pyReplaceGo [c] [d] fuel s = s.map (fun x => if x == c then d else x) := by
  intro fuel
  induction fuel with
  | zero =>
    intro s hl
    have : s = [] := List.eq_nil_of_length_eq_zero (Nat.le_zero.mp hl)
    subst this; rfl
  | succ f ih =>
    intro s hl
    cases s with
    | nil => rw [pyReplaceGo_nil]; rfl
    | cons x xs =>
      rw [pyReplaceGo]
      have hxl : xs.length ≤ f := by
        simp only [List.length_cons] at hl; omega
      have hp : isPre [c] (x :: xs) = (c == x) := by simp [isPre]
      rw [hp]
      by_cases hcx : c = x
      · subst hcx
        simp only [beq_self_eq_true, if_pos, List.length_cons, List.length_nil,
          Nat.zero_add, Nat.sub_self, List.drop_zero, List.map_cons]
        rw [ih xs hxl]
        simp
      · have h1 : (c == x) = false := by simpa using hcx
        have h2 : (x == c) = false := by simpa using Ne.symm hcx
        rw [h1]
        simp only [Bool.false_eq_true, if_false, List.map_cons, h2]
        rw [ih xs hxl]

theorem pyReplace_single (c d : Char) (s : Str) :
    pyReplace [c] [d] s = s.map (fun x => if x == c then d else x) :=
  pyReplaceGo_single c d s.length s (Nat.le_refl _)

theorem dashfree_countOccGo (s : Str) (h : ∀ x ∈ s, ¬ x = '-') :
    ∀ fuel, countOccGo ['-'] fuel s = 0 := by
  induction s with
  | nil => intro fuel; exact countOccGo_nil _ _
  | cons x xs ih =>
    intro fuel
    cases fuel with
    | zero => rfl
    | succ f =>
      rw [countOccGo]
      have hp : isPre ['-'] (x :: xs) = ('-' == x) := by simp [isPre]
      have hx : ('-' == x) = false := by
        simpa using fun hh => (h x (by simp)) hh.symm
      rw [hp, hx]
      simp only [Bool.false_eq_true, if_false]
      exact ih (fun y hy => h y (by simp [hy])) f

theorem dashfree_countOcc (s : Str) (h : ∀ x ∈ s, ¬ x = '-') :
    countOcc ['-'] s = 0 :=
  dashfree_countOccGo s h s.length

theorem rstrip_noop (c : Char) (s : Str) (h : ∀ x, s.getLast? = some x → ¬ x = c) :
    rstripChar c s = s := by
  unfold rstripChar
  cases hs : s.reverse with
  | nil =>
    have : s = [] := by simpa using congrArg List.reverse hs
    simp [this]
  | cons y ys =>
    have hy : s.getLast? = some y := by
      rw [← List.head?_reverse, hs]; rfl
    have hyc : (y == c) = false := by simpa using h y hy
    rw [List.dropWhile_cons, hyc]
    simp only [Bool.false_eq_true, if_false]
    rw [← hs, List.reverse_reverse]

theorem mapSlash_inj (p1 p2 : Str)
    (h1 : ∀ x ∈ p1, ¬ x = '-') (h2 : ∀ x ∈ p2, ¬ x = '-')
    (h : p1.map (fun x => if x == '/' then '-' else x) = p2.map (fun x => if x == '/' then '-' else x)) :
    p1 = p2 := by
  induction p1 generalizing p2 with
  | nil => cases p2 <;> simp_all
  | cons a as ih =>
    cases p2 with
    | nil => simp_all
    | cons b bs =>
      simp only [List.map_cons, List.cons.injEq] at h
      have ha' : ¬ a = '-' := h1 a (by simp)
      have hb' : ¬ b = '-' := h2 b (by simp)
      have hab : a = b := by
        by_cases ha : a = '/'
        · by_cases hb : b = '/'
          · rw [ha, hb]
          · exfalso
            have hbeqa : (a == '/') = true := by simp [ha]
            have hbeqb : (b == '/') = false := by simpa using hb
            rw [if_pos hbeqa, if_neg (by simp [hbeqb])] at h
            exact hb' h.1.symm
        · by_cases hb : b = '/'
          · exfalso
            have hbeqa : (a == '/') = false := by simpa using ha
            have hbeqb : (b == '/') = true := by simp [hb]
            rw [if_neg (by simp [hbeqa]), if_pos hbeqb] at h
            exact ha' h.1
          · have hbeqa : (a == '/') = false := by simpa using ha
            have hbeqb : (b == '/') = false := by simpa using hb
            rw [if_neg (by simp [hbeqa]), if_neg (by simp [hbeqb])] at h
            exact h.1
      subst hab
      rw [ih bs (fun x hx => h1 x (by simp [hx])) (fun x hx => h2 x (by simp [hx])) h.2]

/-! ## Stable-sort lemmas and claims C4, C5, C6, C7, C9 -/

/-! ### Stable-sort lemmas -/

theorem mem_insertBy (stop : Task → Task → Bool) (a : Task) (l : List Task) (x : Task) :
    x ∈ insertBy stop a l ↔ x = a ∨ x ∈ l := by
  induction l with
  | nil => simp [insertBy]
  | cons b bs ih =>
    rw [insertBy]
    by_cases h : stop b a = true
    · rw [if_pos h]
      simp only [List.mem_cons, ih]
      tauto
    · rw [if_neg h]
      simp only [List.mem_cons]

theorem perm_insertBy (stop : Task → Task → Bool) (a : Task) (l : List Task) :
    (insertBy stop a l).Perm (a :: l) := by
  induction l with
  | nil => exact List.Perm.refl _
  | cons b bs ih =>
    rw [insertBy]
    by_cases h : stop b a = true
    · rw [if_pos h]
      exact (ih.cons b).trans (List.Perm.swap a b bs)
    · rw [if_neg h]

theorem perm_ssortBy (stop : Task → Task → Bool) (l : List Task) :
    (ssortBy stop l).Perm l := by
  induction l with
  | nil => exact List.Perm.refl _
  | cons a as ih =>
    rw [ssortBy]
    exact (perm_insertBy stop a _).trans (ih.cons a)

theorem pairwise_insertBy (stop : Task → Task → Bool)
    (hasym : ∀ x y, stop x y = true → stop y x = false)
    (htrans : ∀ x y z, stop x y = false → stop y z = false → stop x z = false)
    (a : Task) (l : List Task)
    (h : l.Pairwise (fun x y => stop y x = false)) :
    (insertBy stop a l).Pairwise (fun x y => stop y x = false) := by
  induction l with
  | nil => simp [insertBy]
  | cons b bs ih =>
    rw [insertBy]
    rcases List.pairwise_cons.mp h with ⟨hb, hbs⟩
    by_cases hba : stop b a = true
    · rw [if_pos hba]
      refine List.pairwise_cons.mpr ⟨?_, ih hbs⟩
      intro y hy
      rcases (mem_insertBy stop a bs y).mp hy with rfl | hy'
      · exact hasym b y hba
      · exact hb y hy'
    · rw [if_neg hba]
      refine List.pairwise_cons.mpr ⟨?_, h⟩
      intro y hy
      have hba' : stop b a = false := by simpa using hba
      rcases List.mem_cons.mp hy with rfl | hy'
      · exact hba'
      · exact htrans y b a (hb y hy') hba'

theorem pairwise_ssortBy (stop : Task → Task → Bool)
    (hasym : ∀ x y, stop x y = true → stop y x = false)
    (htrans : ∀ x y z, stop x y = false → stop y z = false → stop x z = false)
    (l : List Task) :
    (ssortBy stop l).Pairwise (fun x y => stop y x = false) := by
  induction l with
  | nil => simp [ssortBy]
  | cons a as ih =>
    rw [ssortBy]
    exact pairwise_insertBy stop hasym htrans a _ ih

theorem filter_insertBy (stop : Task → Task → Bool) (p : Task → Bool)
    (a : Task) (l : List Task)
    (hk : ∀ b, stop b a = true → p b = true → p a = true → False) :
    (insertBy stop a l).filter p = (a :: l).filter p := by
  induction l with
  | nil => simp [insertBy]
  | cons b bs ih =>
    rw [insertBy]
    by_cases hba : stop b a = true
    · rw [if_pos hba]
      by_cases hpa : p a = true
      · by_cases hpb : p b = true
        · exact absurd (hk b hba hpb hpa) id
        · simp [List.filter_cons, hpa, hpb, ih]
      · by_cases hpb : p b = true <;> simp [List.filter_cons, hpa, hpb, ih]
    · rw [if_neg hba]

theorem filter_ssortBy (stop : Task → Task → Bool) (p : Task → Bool)
    (hk : ∀ a b, stop b a = true → p b = true → p a = true → False)
    (l : List Task) :
    (ssortBy stop l).filter p = l.filter p := by
  induction l with
  | nil => rfl
  | cons a as ih =>
    rw [ssortBy, filter_insertBy stop p a _ (fun b hb => hk a b hb)]
    simp [List.filter_cons, ih]

/-- With no dash, no home token and no trailing separator, the safe name is
just the slash-to-dash character map. -/
theorem safeName_dashfree (home p : Str) (h1 : ∀ x ∈ p, ¬ x = '-')
    (h3 : countOcc "HOME".data p = 0) (h5 : endsWithL p "/".data = false) :
    safeName home p = p.map (fun x => if x == '/' then '-' else x) := by
  unfold safeName normalize_path
  rw [countOcc_zero_noop _ _ _ h3]
  have e2 : "-".data = ['-'] := rfl
  have e3 : "/".data = ['/'] := rfl
  rw [e2, e3]
  have hd : countOcc ['-'] p = 0 := dashfree_countOcc p h1
  have e4 : "--".data = ['-', '-'] := rfl
  rw [e4, countOcc_zero_noop _ _ _ hd, pyReplace_single '/' '-' p]
  apply rstrip_noop
  intro x hx
  cases hp : p.reverse with
  | nil =>
    have hnil : p = [] := by simpa using congrArg List.reverse hp
    subst hnil
    simp at hx
  | cons y ys =>
    have hmem : y ∈ p := by
      have : y ∈ p.reverse := by rw [hp]; exact List.mem_cons_self _ _
      simpa using this
    have hy2 : ¬ y = '/' := by
      intro hy
      subst hy
      unfold endsWithL at h5
      rw [show ("/".data).reverse = ['/'] from rfl, hp] at h5
      simp [isPre] at h5
    have hgl : (p.map (fun c => if c == '/' then '-' else c)).getLast? =
        some (if y == '/' then '-' else y) := by
      rw [← List.head?_reverse, ← List.map_reverse, hp]
      rfl
    rw [hgl] at hx
    have hy1 : ¬ y = '-' := h1 y hmem
    have hyf : (y == '/') = false := by simpa using hy2
    rw [hyf] at hx
    simp only [Bool.false_eq_true, if_false, Option.some.injEq] at hx
    subst hx
    exact hy1

/-- C4, counterexample: the composite leaf-name mapping is not injective —
the two distinct home-relative paths (dash before the separator vs. dash
after it) receive the same backing-store leaf name `a---b`. -/
theorem c4_counterexample :
    safeName "/h".data "a-/b".data = safeName "/h".data "a/-b".data ∧
      "a-/b".data ≠ "a/-b".data := ⟨rfl, by decide⟩

/-- C4, amended: the mapping from a home-relative path to its backing-store
leaf name (`normalize_path` followed by the trailing `rstrip("-")`) is
injective on paths that contain no `'-'` character, contain no `"HOME"`
token, and do not end with `'/'`. -/
theorem c4_amended (home p1 p2 : Str)
    (h1 : ∀ x ∈ p1, ¬ x = '-') (h2 : ∀ x ∈ p2, ¬ x = '-')
    (h3 : countOcc "HOME".data p1 = 0) (h4 : countOcc "HOME".data p2 = 0)
    (h5 : endsWithL p1 "/".data = false) (h6 : endsWithL p2 "/".data = false)
    (heq : safeName home p1 = safeName home p2) : p1 = p2 := by
  rw [safeName_dashfree home p1 h1 h3 h5, safeName_dashfree home p2 h2 h4 h6] at heq
  exact mapSlash_inj p1 p2 h1 h2 heq

/-- C4, witness for the amended theorem at concrete inputs. -/
theorem c4_amended_witness : "ab/c".data = "ab/c".data :=
  c4_amended "/h".data "ab/c".data "ab/c".data (by decide) (by decide) (by decide)
    (by decide) (by decide) (by decide) rfl

/-- C5, counterexample: for the raw path `p = " a"`, the removal pass
(declaration `"-" ++ p`, i.e. `"- a"`) derives a different `src` than the
addition pass derives from `p`, because the removal pass strips the
leading whitespace after the marker while the addition pass keeps it. -/
theorem c5_counterexample :
    (remDerive "/h".data "/b".data "- a".data).1 ≠ (addDerive "/h".data "/b".data " a".data).1 := by
  decide

/-- C5, amended: if the raw path has no leading whitespace and contains at
most one occurrence of `"HOME/"`, then the removal pass derives exactly the
`src` and `dst` the addition pass would derive for the un-prefixed path. -/
theorem c5_amended (home base p : Str)
    (h1 : lstripWS p = p) (h2 : countOcc "HOME/".data p ≤ 1) :
    (remDerive home base ("-".data ++ p)).1 = (addDerive home base p).1 ∧
    (remDerive home base ("-".data ++ p)).2.1 = (addDerive home base p).2.1 := by
  unfold remDerive addDerive
  have hdrop : ("-".data ++ p).drop 1 = p := rfl
  rw [hdrop, h1, ← pyReplace_one "HOME/".data [] p h2]
  exact ⟨rfl, rfl⟩

/-- C5, witness for the amended theorem at concrete inputs. -/
theorem c5_amended_witness :
    (remDerive "/h".data "/b".data ("-".data ++ "HOME/pics/".data)).1 =
      (addDerive "/h".data "/b".data "HOME/pics/".data).1 ∧
    (remDerive "/h".data "/b".data ("-".data ++ "HOME/pics/".data)).2.1 =
      (addDerive "/h".data "/b".data "HOME/pics/".data).2.1 :=
  c5_amended "/h".data "/b".data "HOME/pics/".data (by decide) (by decide)

/-- C7, counterexample: `normalize_path` does not replace the home token
with the empty string — deleting the token from the path `"HOME"` yields
`""`, whose safe name differs from the safe name the program computes. -/
theorem c7_counterexample :
    pyReplace "HOME".data [] "HOME".data = ([] : Str) ∧
    normalize_path "/h".data "HOME".data ≠ normalize_path "/h".data [] := by
  exact ⟨rfl, by decide⟩

/-- C7, amended: `normalize_path` replaces an embedded `"HOME"` token with
the home-directory value (not the empty string) before escaping the
separators, so the safe name of the path `"HOME"` itself equals the escaped
home-directory string. -/
theorem c7_amended (home p : Str) :
    normalize_path home p = escapeSeps (pyReplace "HOME".data home p) ∧
    normalize_path home "HOME".data = escapeSeps home := by
  refine ⟨rfl, ?_⟩
  show escapeSeps (pyReplace "HOME".data home "HOME".data) = escapeSeps home
  rw [pyReplace_self "HOME".data home (by decide)]

/-- C6: the addition pass processes the stable descending-length sort of
its task list and the removal pass the stable ascending-length sort: the
processed order is sorted by `len(src)` (descending resp. ascending), is a
permutation of the built task list, and ties between equal `len(src)` keys
keep their input order (the filter at any fixed length is unchanged). -/
theorem c6_ordering :
    (∀ env cfg fs, apply_additions env cfg fs =
        runTasks (addStep env) ⟨fs, (buildAddTasks env fs cfg).2⟩
          (ssortBy descBefore (buildAddTasks env fs cfg).1)) ∧
    (∀ env cfg fs, apply_removals env cfg fs =
        runTasks (remStep env) ⟨fs, (buildRemTasks env fs cfg).2⟩
          (ssortBy ascBefore (buildRemTasks env fs cfg).1)) ∧
    (∀ l, (ssortBy descBefore l).Pairwise (fun x y => lenSrc y ≤ lenSrc x)) ∧
    (∀ l, (ssortBy ascBefore l).Pairwise (fun x y => lenSrc x ≤ lenSrc y)) ∧
    (∀ l, (ssortBy descBefore l).Perm l) ∧
    (∀ l, (ssortBy ascBefore l).Perm l) ∧
    (∀ l n, (ssortBy descBefore l).filter (fun t => lenSrc t == n) =
      l.filter (fun t => lenSrc t == n)) ∧
    (∀ l n, (ssortBy ascBefore l).filter (fun t => lenSrc t == n) =
      l.filter (fun t => lenSrc t == n)) := by
  refine ⟨fun env cfg fs => rfl, fun env cfg fs => rfl, ?_, ?_, perm_ssortBy _, perm_ssortBy _, ?_, ?_⟩
  · intro l
    have := pairwise_ssortBy descBefore
      (fun x y h => by simp [descBefore] at h ⊢; omega)
      (fun x y z h1 h2 => by simp [descBefore] at h1 h2 ⊢; omega) l
    exact this.imp (fun {x y} h => by simp [descBefore] at h; omega)
  · intro l
    have := pairwise_ssortBy ascBefore
      (fun x y h => by simp [ascBefore] at h ⊢; omega)
      (fun x y z h1 h2 => by simp [ascBefore] at h1 h2 ⊢; omega) l
    exact this.imp (fun {x y} h => by simp [ascBefore] at h; omega)
  · intro l n
    apply filter_ssortBy
    intro a b hb hpb hpa
    simp only [descBefore, decide_eq_true_eq] at hb
    simp only [beq_iff_eq] at hpa hpb
    omega
  · intro l n
    apply filter_ssortBy
    intro a b hb hpb hpa
    simp only [ascBefore, decide_eq_true_eq] at hb
    simp only [beq_iff_eq] at hpa hpb
    omega

/-- Tasks with pairwise-distinct sources admit at most one task per path. -/
theorem filter_src_length_le_one (p : Str) :
    ∀ l : List Task, (l.map Task.src).Pairwise (fun a b => a ≠ b) →
      (l.filter (fun t => t.src == p)).length ≤ 1 := by
  intro l
  induction l with
  | nil => intro; simp
  | cons t ts ih =>
    intro h
    rw [List.map_cons] at h
    rcases List.pairwise_cons.mp h with ⟨ht, hts⟩
    rw [List.filter_cons]
    by_cases hp : (t.src == p) = true
    · rw [if_pos hp]
      have : ts.filter (fun u => u.src == p) = [] := by
        apply List.filter_eq_nil_iff.mpr
        intro u hu
        have : ¬ t.src = u.src := ht u.src (List.mem_map_of_mem Task.src hu)
        simp only [beq_iff_eq] at hp ⊢
        intro hup
        exact this (hp.trans hup.symm)
      simp [this]
    · rw [if_neg hp]
      exact ih hts

/-- C9, counterexample: the configuration declaring both `a` and `a/` in
one storage enqueues two tasks for the same home path `/h/a` in a single
addition pass. -/
theorem c9_counterexample :
    ((buildAddTasks ⟨"/h".data, fun _ => 0, fun _ _ => true⟩
        [(["h".data], Node.dir), (["mnt".data], Node.dir)]
        [⟨"/mnt".data, ["a".data, "a/".data]⟩]).1.filter
      (fun t => t.src == "/h/a".data)).length = 2 := rfl

/-- C9, amended: each declaration contributes at most one task, so a
home-relative path corresponds to at most one task in a pass provided the
non-skipped declarations of the pass derive pairwise-distinct sources. -/
theorem c9_amended (env : Env) (fs : FS) (cfg : Config) (p : Str)
    (hadd : ((buildAddTasks env fs cfg).1.map Task.src).Pairwise (fun a b => a ≠ b))
    (hrem : ((buildRemTasks env fs cfg).1.map Task.src).Pairwise (fun a b => a ≠ b)) :
    ((buildAddTasks env fs cfg).1.filter (fun t => t.src == p)).length ≤ 1 ∧
    ((buildRemTasks env fs cfg).1.filter (fun t => t.src == p)).length ≤ 1 :=
  ⟨filter_src_length_le_one p _ hadd, filter_src_length_le_one p _ hrem⟩

/-- C9, witness for the amended theorem at a concrete configuration. -/
theorem c9_amended_witness :
    ((buildAddTasks ⟨"/h".data, fun _ => 0, fun _ _ => true⟩
        [(["h".data], Node.dir)] [⟨"/mnt".data, ["a".data, "bc".data]⟩]).1.filter
      (fun t => t.src == "/h/a".data)).length ≤ 1 ∧
    ((buildRemTasks ⟨"/h".data, fun _ => 0, fun _ _ => true⟩
        [(["h".data], Node.dir)] [⟨"/mnt".data, ["a".data, "bc".data]⟩]).1.filter
      (fun t => t.src == "/h/a".data)).length ≤ 1 :=
  c9_amended ⟨"/h".data, fun _ => 0, fun _ _ => true⟩
    [(["h".data], Node.dir)] [⟨"/mnt".data, ["a".data, "bc".data]⟩]
    "/h/a".data (by decide) (by decide)

/-! ## Resolution lemmas and claims C10, C8, C1; counterexamples for C2 and C3 -/

/-! ### Resolution lemmas (for C10) -/

theorem resolveComps_fuel_le (fs : FS) :
    ∀ fuel acc l q f, resolveComps fs fuel acc l = some (q, f) → f ≤ fuel := by
  intro fuel
  induction fuel with
  | zero =>
    intro acc l q f h
    rw [resolveComps] at h
    cases hw : walkGo fs acc l with
    | done q' => rw [hw] at h; simp at h; omega
    | fail => rw [hw] at h; simp at h
    | jump t rest =>
      rw [hw] at h
      dsimp only at h
      by_cases ht : t.isEmpty = true
      · rw [if_pos ht] at h; simp at h
      · rw [if_neg ht] at h; simp at h
  | succ f' ih =>
    intro acc l q f h
    rw [resolveComps] at h
    cases hw : walkGo fs acc l with
    | done q' => rw [hw] at h; simp at h; omega
    | fail => rw [hw] at h; simp at h
    | jump t rest =>
      rw [hw] at h
      dsimp only at h
      by_cases ht : t.isEmpty = true
      · rw [if_pos ht] at h; simp at h
      · rw [if_neg ht] at h
        have := ih [] (splitPath t ++ rest) q f h
        omega

theorem resolveComps_mono (fs : FS) (k : Nat) :
    ∀ fuel acc l q f, resolveComps fs fuel acc l = some (q, f) →
      resolveComps fs (fuel + k) acc l = some (q, f + k) := by
  intro fuel
  induction fuel with
  | zero =>
    intro acc l q f h
    rw [resolveComps] at h
    rw [resolveComps]
    cases hw : walkGo fs acc l with
    | done q' =>
      rw [hw] at h
      simp only [Option.some.injEq, Prod.mk.injEq] at h
      simp [h.1, h.2]
    | fail => rw [hw] at h; simp at h
    | jump t rest =>
      rw [hw] at h
      dsimp only at h
      by_cases ht : t.isEmpty = true
      · rw [if_pos ht] at h; simp at h
      · rw [if_neg ht] at h; simp at h
  | succ f' ih =>
    intro acc l q f h
    rw [resolveComps] at h
    rw [resolveComps]
    cases hw : walkGo fs acc l with
    | done q' =>
      rw [hw] at h
      simp only [Option.some.injEq, Prod.mk.injEq] at h
      simp [h.1, h.2]
    | fail => rw [hw] at h; simp at h
    | jump t rest =>
      rw [hw] at h
      dsimp only at h
      by_cases ht : t.isEmpty = true
      · rw [if_pos ht] at h; simp at h
      · rw [if_neg ht] at h
        dsimp only
        rw [if_neg ht]
        have hfk : f' + 1 + k = (f' + k) + 1 := by omega
        rw [hfk]
        exact ih [] (splitPath t ++ rest) q f h

theorem isDirKey_ne_nil (fs : FS) (q : Comps) (hq : ¬ q = []) :
    isDirKey fs q = (match lookupFS fs q with | some .dir => true | _ => false) := by
  cases q with
  | nil => exact absurd rfl hq
  | cons a as => rfl

theorem walk_snoc_dir (fs : FS) (ys : Comps) :
    ∀ par acc q, walkGo fs acc par = .done q → isDirKey fs q = true →
      walkGo fs acc (par ++ ys) = walkGo fs q ys := by
  intro par
  induction par with
  | nil =>
    intro acc q h _
    rw [walkGo] at h
    injection h with h
    subst h
    rfl
  | cons c rest ih =>
    intro acc q h hq
    rw [walkGo] at h
    rw [List.cons_append, walkGo]
    cases hl : lookupFS fs (acc ++ [c]) with
    | none => rw [hl] at h; simp at h
    | some n =>
      rw [hl] at h
      cases n with
      | symlink t => simp at h
      | dir => exact ih (acc ++ [c]) q h hq
      | file content =>
        by_cases hr : rest.isEmpty = true
        · rw [if_pos hr] at h
          injection h with h
          subst h
          rw [isDirKey_ne_nil fs _ (by simp), hl] at hq
          simp at hq
        · rw [if_neg hr] at h; simp at h

theorem walk_snoc_jump (fs : FS) (ys : Comps) :
    ∀ par acc t rest, walkGo fs acc par = .jump t rest →
      walkGo fs acc (par ++ ys) = .jump t (rest ++ ys) := by
  intro par
  induction par with
  | nil => intro acc t rest h; rw [walkGo] at h; simp at h
  | cons c rest' ih =>
    intro acc t rest h
    rw [walkGo] at h
    rw [List.cons_append, walkGo]
    cases hl : lookupFS fs (acc ++ [c]) with
    | none => rw [hl] at h; simp at h
    | some n =>
      rw [hl] at h
      cases n with
      | symlink t' =>
        injection h with h1 h2
        subst h1; subst h2
        rfl
      | dir => exact ih (acc ++ [c]) t rest h
      | file content =>
        by_cases hr : rest'.isEmpty = true
        · rw [if_pos hr] at h; simp at h
        · rw [if_neg hr] at h; simp at h

theorem resolve_snoc (fs : FS) (ys : Comps) :
    ∀ fuel acc par q f, resolveComps fs fuel acc par = some (q, f) → isDirKey fs q = true →
      resolveComps fs fuel acc (par ++ ys) = resolveComps fs f q ys := by
  intro fuel
  induction fuel with
  | zero =>
    intro acc par q f h hq
    rw [resolveComps] at h
    cases hw : walkGo fs acc par with
    | done q' =>
      rw [hw] at h
      simp only [Option.some.injEq, Prod.mk.injEq] at h
      rw [resolveComps, walk_snoc_dir fs ys par acc q' hw (h.1 ▸ hq), ← h.1, ← h.2]
      rw [resolveComps]
    | fail => rw [hw] at h; simp at h
    | jump t rest =>
      rw [hw] at h
      dsimp only at h
      by_cases ht : t.isEmpty = true
      · rw [if_pos ht] at h; simp at h
      · rw [if_neg ht] at h; simp at h
  | succ f' ih =>
    intro acc par q f h hq
    rw [resolveComps] at h
    cases hw : walkGo fs acc par with
    | done q' =>
      rw [hw] at h
      simp only [Option.some.injEq, Prod.mk.injEq] at h
      rw [resolveComps, walk_snoc_dir fs ys par acc q' hw (h.1 ▸ hq), ← h.1, ← h.2]
      rw [resolveComps]
    | fail => rw [hw] at h; simp at h
    | jump t rest =>
      rw [hw] at h
      dsimp only at h
      by_cases ht : t.isEmpty = true
      · rw [if_pos ht] at h; simp at h
      · rw [if_neg ht] at h
        rw [resolveComps, walk_snoc_jump fs ys par acc t rest hw]
        dsimp only
        rw [if_neg ht, ← List.append_assoc]
        exact ih [] (splitPath t ++ rest) q f h hq

theorem getLast?_decomp : ∀ (l : Comps) (x : Str), l.getLast? = some x → l = l.dropLast ++ [x] := by
  intro l
  induction l with
  | nil => intro x h; simp at h
  | cons a as ih =>
    intro x h
    cases as with
    | nil =>
      simp only [List.getLast?_singleton, Option.some.injEq] at h
      subst h
      rfl
    | cons b bs =>
      have h' : (b :: bs).getLast? = some x := by
        rw [← h]
        exact List.getLast?_cons_cons.symm
      have := ih x h'
      calc a :: b :: bs = a :: ((b :: bs).dropLast ++ [x]) := by rw [← this]
        _ = (a :: b :: bs).dropLast ++ [x] := by simp

/-- C10: a declaration over a dangling symbolic link (the link's target does
not exist) passes the conflict check with Ok for either expected type,
because `handle_path_conflict` tests existence through the link. -/
theorem c10_dangling_ok (fs : FS) (p t : Str) (d : Bool)
    (hl : readlinkPath fs p = some t)
    (hne : pathExists fs t = false) :
    handle_path_conflict fs p d = (true, none) := by
  unfold readlinkPath at hl
  cases hk : lresolveKey fs p with
  | none => rw [hk] at hl; simp at hl
  | some k =>
    rw [hk] at hl
    dsimp only at hl
    cases hn : lookupFS fs k with
    | none => rw [hn] at hl; simp at hl
    | some n =>
      rw [hn] at hl
      cases n with
      | file c => simp at hl
      | dir => simp at hl
      | symlink t' =>
        dsimp only at hl
        simp only [Option.some.injEq] at hl
        subst hl
        unfold lresolveKey at hk
        cases hgl : (splitPath p).getLast? with
        | none => rw [hgl] at hk; simp at hk
        | some lastC =>
          rw [hgl] at hk
          cases hres : resolveComps fs FUEL [] (splitPath p).dropLast with
          | none => rw [hres] at hk; simp at hk
          | some qf =>
            rw [hres] at hk
            obtain ⟨q, f⟩ := qf
            dsimp only at hk
            by_cases hdq : isDirKey fs q = true
            · rw [if_pos hdq] at hk
              simp only [Option.some.injEq] at hk
              subst hk
              have hex : pathExists fs p = false := by
                unfold pathExists
                by_cases hpe : p.isEmpty = true
                · rw [if_pos hpe]
                · rw [if_neg hpe]
                  have hsp : splitPath p = (splitPath p).dropLast ++ [lastC] :=
                    getLast?_decomp _ _ hgl
                  rw [hsp, resolve_snoc fs [lastC] FUEL [] _ q f hres hdq]
                  rw [resolveComps]
                  have hw : walkGo fs q [lastC] = .jump t' [] := by
                    rw [walkGo, hn]
                  rw [hw]
                  dsimp only
                  by_cases hte : t'.isEmpty = true
                  · rw [if_pos hte]; rfl
                  · rw [if_neg hte]
                    cases hf : f with
                    | zero => rfl
                    | succ f2 =>
                      rw [List.append_nil]
                      dsimp only
                      have hfe : resolveComps fs FUEL [] (splitPath t') = none := by
                        unfold pathExists at hne
                        rw [if_neg hte] at hne
                        cases hcc : resolveComps fs FUEL [] (splitPath t') with
                        | none => rfl
                        | some x => rw [hcc] at hne; simp at hne
                      cases hc2 : resolveComps fs f2 [] (splitPath t') with
                      | none => rfl
                      | some x =>
                        exfalso
                        obtain ⟨q2, f3⟩ := x
                        have hle : f ≤ FUEL := resolveComps_fuel_le fs FUEL [] _ q f hres
                        have hk2 : f2 + (FUEL - f2) = FUEL := by omega
                        have hm := resolveComps_mono fs (FUEL - f2) f2 [] (splitPath t') q2 f3 hc2
                        rw [hk2, hfe] at hm
                        simp at hm
              unfold handle_path_conflict
              rw [hex]
              simp
            · rw [if_neg hdq] at hk; simp at hk

/-- C10, witness: a concrete dangling symlink at `/h/l` with missing target
`/gone` passes the conflict check for both expected types. -/
theorem c10_dangling_ok_witness :
    handle_path_conflict [(["h".data], Node.dir), (["h".data, "l".data], Node.symlink "/gone".data)]
      "/h/l".data true = (true, none) :=
  c10_dangling_ok [(["h".data], Node.dir), (["h".data, "l".data], Node.symlink "/gone".data)]
    "/h/l".data "/gone".data true (by decide) (by decide)

/-! ### C8: type-conflict declarations are skipped -/

theorem buildDecls_mem (one : Str → Option Task × Option Report) :
    ∀ (decls : List Str) (t : Task), t ∈ (buildDecls one decls).1 →
      ∃ raw ∈ decls, (one raw).1 = some t := by
  intro decls
  induction decls with
  | nil => intro t h; simp [buildDecls] at h
  | cons raw rest ih =>
    intro t h
    rw [buildDecls] at h
    simp only [List.mem_append] at h
    rcases h with h | h
    · refine ⟨raw, by simp, ?_⟩
      cases hx : (one raw).1 with
      | none => rw [hx] at h; simp [Option.toList] at h
      | some t' =>
        rw [hx] at h
        simp only [Option.toList, List.mem_singleton] at h
        rw [h]
    · obtain ⟨r, hr, h2⟩ := ih t h
      exact ⟨r, by simp [hr], h2⟩

theorem buildStorages_mem (one : Str → Str → Option Task × Option Report) :
    ∀ (cfg : Config) (t : Task), t ∈ (buildStorages one cfg).1 →
      ∃ st ∈ cfg, t ∈ (buildDecls (one st.base) st.decls).1 := by
  intro cfg
  induction cfg with
  | nil => intro t h; simp [buildStorages] at h
  | cons st rest ih =>
    intro t h
    rw [buildStorages] at h
    simp only [List.mem_append] at h
    rcases h with h | h
    · exact ⟨st, by simp, h⟩
    · obtain ⟨st', hs, h2⟩ := ih t h
      exact ⟨st', by simp [hs], h2⟩

theorem buildAddOne_conflict (env : Env) (fs : FS) (base raw : Str) (t : Task)
    (h : (buildAddOne env fs base raw).1 = some t) :
    (handle_path_conflict fs t.src t.isDir).1 = true := by
  unfold buildAddOne at h
  by_cases hs : startsWithL raw "-".data = true
  · rw [if_pos hs] at h; simp at h
  · rw [if_neg hs] at h
    dsimp only at h
    cases hc : handle_path_conflict fs (addDerive env.home base raw).1 (addDerive env.home base raw).2.2 with
    | mk b r =>
      rw [hc] at h
      cases b with
      | true =>
        dsimp only at h
        injection h with h
        subst h
        show (handle_path_conflict fs (addDerive env.home base raw).1 (addDerive env.home base raw).2.2).1 = true
        rw [hc]
      | false => dsimp only at h; simp at h

theorem buildRemOne_conflict (env : Env) (fs : FS) (base raw : Str) (t : Task)
    (h : (buildRemOne env fs base raw).1 = some t) :
    (handle_path_conflict fs t.src t.isDir).1 = true := by
  unfold buildRemOne at h
  by_cases hs : startsWithL raw "-".data = true
  · rw [if_pos hs] at h
    dsimp only at h
    cases hc : handle_path_conflict fs (remDerive env.home base raw).1 (remDerive env.home base raw).2.2 with
    | mk b r =>
      rw [hc] at h
      cases b with
      | true =>
        dsimp only at h
        injection h with h
        subst h
        show (handle_path_conflict fs (remDerive env.home base raw).1 (remDerive env.home base raw).2.2).1 = true
        rw [hc]
      | false => dsimp only at h; simp at h
  · rw [if_neg hs] at h; simp at h

/-- C8: a declaration whose existing `src` type disagrees with the expected
type is rejected by the conflict check with the corresponding warning; a
missing `src` passes the check; and every task either pass enqueues passed
the check — so a conflicting declaration contributes no task to either pass
and is never processed. -/
theorem c8_type_conflict_skip :
    (∀ fs src, pathExists fs src = true → isDirPath fs src = false →
        handle_path_conflict fs src true = (false, some (.warnNeedDir src))) ∧
    (∀ fs src, pathExists fs src = true → isFilePath fs src = false →
        handle_path_conflict fs src false = (false, some (.warnNeedFile src))) ∧
    (∀ fs src d, pathExists fs src = false → handle_path_conflict fs src d = (true, none)) ∧
    (∀ env fs cfg t, t ∈ (buildAddTasks env fs cfg).1 →
        (handle_path_conflict fs t.src t.isDir).1 = true) ∧
    (∀ env fs cfg t, t ∈ (buildRemTasks env fs cfg).1 →
        (handle_path_conflict fs t.src t.isDir).1 = true) := by
  refine ⟨?_, ?_, ?_, ?_, ?_⟩
  · intro fs src hex hdir
    unfold handle_path_conflict
    rw [hex, hdir]
    simp
  · intro fs src hex hfile
    unfold handle_path_conflict
    rw [hex, hfile]
    simp
  · intro fs src d hex
    unfold handle_path_conflict
    rw [hex]
    simp
  · intro env fs cfg t ht
    obtain ⟨st, _, h1⟩ := buildStorages_mem _ cfg t ht
    obtain ⟨raw, _, h2⟩ := buildDecls_mem _ st.decls t h1
    exact buildAddOne_conflict env fs st.base raw t h2
  · intro env fs cfg t ht
    obtain ⟨st, _, h1⟩ := buildStorages_mem _ cfg t ht
    obtain ⟨raw, _, h2⟩ := buildDecls_mem _ st.decls t h1
    exact buildRemOne_conflict env fs st.base raw t h2

/-- C8, witness: the conflict check at concrete mismatched and missing paths. -/
theorem c8_type_conflict_skip_witness :
    handle_path_conflict fsC8 "/h/a".data true = (false, some (.warnNeedDir "/h/a".data)) ∧
    handle_path_conflict fsC8 "/h/b".data false = (false, some (.warnNeedFile "/h/b".data)) ∧
    handle_path_conflict fsC8 "/h/c".data true = (true, none) :=
  ⟨c8_type_conflict_skip.1 fsC8 "/h/a".data (by decide) (by decide),
   c8_type_conflict_skip.2.1 fsC8 "/h/b".data (by decide) (by decide),
   c8_type_conflict_skip.2.2.1 fsC8 "/h/c".data true (by decide)⟩

/-- C1 (code bug): with `/root/a` a symlink to a foreign target, the
addition pass prints the wrong-symlink error and then — because the source
has no `continue` in that branch — falls through to `os.symlink(dst, src)`,
which raises `FileExistsError` and aborts the whole pass: the filesystem is
left untouched (the mismatched symlink survives, nothing is created), but
the remaining task for `/root/b` is never processed, contradicting the
claimed skip-and-continue behaviour. -/
theorem c1_wrong_symlink_crash :
    apply_additions envY cfgC1 fsC1 =
      .error (.fileExists, ⟨fsC1, [.wrongLink "/root/a".data]⟩) ∧
    islinkPath fsC1 "/root/a".data = true ∧
    readlinkPath fsC1 "/root/a".data = some "/elsewhere".data ∧
    lookupFS fsC1 ["root".data, "b".data] = some (.file 5) :=
  ⟨rfl, rfl, rfl, rfl⟩

/-- C2, counterexample: a declaration whose `src` does not exist has no
type conflict and no destination collision, and with every confirmation
accepted the round trip still fails to restore the original state — the
addition pass materialises an empty backing file which the removal pass
then moves to the home path, leaving a file where originally there was
nothing. -/
theorem c2_counterexample :
    pathExists fsRT0 "/root/a".data = false ∧
    pathExists fsRT0 "/mnt/a".data = false ∧
    (match roundTrip envY cfgAddA cfgRemA fsRT0 with
     | .ok s2 => lookupFS s2.fs ["root".data, "a".data]
     | .error _ => none) = some (.file 0) ∧
    lookupFS fsRT0 ["root".data, "a".data] = none :=
  ⟨rfl, rfl, rfl, rfl⟩

/-- C3, counterexample: with a cross-device destination and the operator
declining, the first run cancels the move; the second run over the
unchanged filesystem reports the same cancellation — not "already
configured" — and the task's `src` is not a symlink, refuting the claim's
"every task finds src to be a symlink pointing at its dst". -/
theorem c3_counterexample :
    apply_additions envN cfgAddA fsC3 = .ok ⟨fsC3, [.cancelledAdd "/root/a".data]⟩ ∧
    (match apply_additions envN cfgAddA fsC3 with
     | .ok s1 => apply_additions envN cfgAddA s1.fs
     | .error e => .error e) = .ok ⟨fsC3, [.cancelledAdd "/root/a".data]⟩ ∧
    islinkPath fsC3 "/root/a".data = false :=
  ⟨rfl, rfl, rfl⟩

/-! ## Infrastructure for the reconciliation proofs -/

/-! ### Prefix-order lemmas -/

theorem lookupFS_nil (k : Comps) : lookupFS [] k = none := rfl

theorem lookupFS_cons (k0 : Comps) (v0 : Node) (rest : FS) (k : Comps) :
    lookupFS ((k0, v0) :: rest) k = if k0 = k then some v0 else lookupFS rest k := rfl

theorem compsLe_refl (a : Comps) : compsLe a a = true := by
  induction a with
  | nil => rfl
  | cons c cs ih => simp [compsLe, ih]

theorem compsLe_iff (a b : Comps) : compsLe a b = true ↔ ∃ r, b = a ++ r := by
  induction a generalizing b with
  | nil => simp [compsLe]
  | cons x xs ih =>
    cases b with
    | nil =>
      simp only [compsLe]
      constructor
      · intro h; cases h
      · rintro ⟨r, hr⟩; cases hr
    | cons y ys =>
      simp only [compsLe, Bool.and_eq_true, beq_iff_eq, ih]
      constructor
      · rintro ⟨rfl, r, rfl⟩; exact ⟨r, rfl⟩
      · rintro ⟨r, hr⟩
        injection hr with h1 h2
        exact ⟨h1.symm, r, h2⟩

theorem compsLe_isPrefix (a b : Comps) : compsLe a b = true ↔ a <+: b := by
  rw [compsLe_iff]
  constructor
  · rintro ⟨r, rfl⟩; exact ⟨r, rfl⟩
  · rintro ⟨r, rfl⟩; exact ⟨r, rfl⟩

theorem compsLe_length (a b : Comps) (h : compsLe a b = true) : a.length ≤ b.length := by
  obtain ⟨r, rfl⟩ := (compsLe_iff a b).mp h
  simp

theorem compsLe_append (a r : Comps) : compsLe a (a ++ r) = true :=
  (compsLe_iff a (a ++ r)).mpr ⟨r, rfl⟩

theorem compsLe_decomp (a b : Comps) (h : compsLe a b = true) : b = a ++ b.drop a.length := by
  obtain ⟨r, rfl⟩ := (compsLe_iff a b).mp h
  rw [List.drop_left]

theorem compsLe_trans (a b c : Comps) (h1 : compsLe a b = true) (h2 : compsLe b c = true) :
    compsLe a c = true := by
  obtain ⟨r, rfl⟩ := (compsLe_iff a b).mp h1
  obtain ⟨s, rfl⟩ := (compsLe_iff _ _).mp h2
  rw [List.append_assoc]
  exact compsLe_append a _

theorem compsLe_total_of_common (a b k : Comps)
    (ha : compsLe a k = true) (hb : compsLe b k = true) :
    compsLe a b = true ∨ compsLe b a = true := by
  rw [compsLe_isPrefix] at ha hb
  rw [compsLe_isPrefix, compsLe_isPrefix]
  exact List.prefix_or_prefix_of_prefix ha hb

theorem compsLe_antisymm (a b : Comps) (h1 : compsLe a b = true) (h2 : compsLe b a = true) :
    a = b := by
  obtain ⟨r, rfl⟩ := (compsLe_iff a b).mp h1
  have := compsLe_length _ _ h2
  simp at this
  simp [this]

theorem append_drop_cancel (b x : Comps) : (b ++ x).drop b.length = x := List.drop_left b x

/-! ### Lookup characterizations of the pure operations -/

theorem entry_lookup (fs : FS) (kv : Comps × Node) (h : kv ∈ fs) :
    lookupFS fs kv.1 ≠ none := by
  induction fs with
  | nil => simp at h
  | cons e rest ih =>
    obtain ⟨k0, v0⟩ := e
    rw [lookupFS_cons]
    by_cases hk : k0 = kv.1
    · rw [if_pos hk]; simp
    · rw [if_neg hk]
      rcases List.mem_cons.mp h with rfl | h2
      · exact absurd rfl hk
      · exact ih h2

theorem lookup_eraseKey (k' : Comps) (fs : FS) (k : Comps) :
    lookupFS (eraseKey k' fs) k = if k = k' then none else lookupFS fs k := by
  induction fs with
  | nil =>
    by_cases hk : k = k'
    · rw [if_pos hk]; rfl
    · rw [if_neg hk]; rfl
  | cons e rest ih =>
    obtain ⟨k0, v0⟩ := e
    rw [eraseKey]
    by_cases h0 : k0 = k'
    · rw [if_pos h0, ih]
      by_cases hk : k = k'
      · rw [if_pos hk, if_pos hk]
      · rw [if_neg hk, if_neg hk, lookupFS_cons]
        have hne : ¬ k0 = k := by
          rw [h0]; intro hh; exact hk hh.symm
        rw [if_neg hne]
    · rw [if_neg h0, lookupFS_cons, lookupFS_cons]
      by_cases hk0 : k0 = k
      · rw [if_pos hk0, if_pos hk0]
        have hne : ¬ k = k' := by
          rw [← hk0]; intro hh; exact h0 hh
        rw [if_neg hne]
      · rw [if_neg hk0, if_neg hk0, ih]

theorem lookup_insertKV (k' : Comps) (v : Node) (fs : FS) (k : Comps) :
    lookupFS (insertKV k' v fs) k = if k = k' then some v else lookupFS fs k := by
  unfold insertKV
  rw [lookupFS_cons]
  by_cases hk : k' = k
  · rw [if_pos hk, if_pos hk.symm]
  · rw [if_neg hk, lookup_eraseKey, if_neg (fun hh => hk hh.symm)]
    rw [if_neg (fun hh => hk hh.symm)]

theorem lookup_relocateSub (a b : Comps) (fs : FS) (k : Comps)
    (hfree : ∀ kv ∈ fs, compsLe b kv.1 = false) :
    lookupFS (relocateSub a b fs) k =
      if compsLe b k = true then lookupFS fs (a ++ k.drop b.length)
      else if compsLe a k = true then none
      else lookupFS fs k := by
  induction fs with
  | nil =>
    by_cases h1 : compsLe b k = true
    · rw [if_pos h1]; rfl
    · rw [if_neg h1]
      by_cases h2 : compsLe a k = true
      · rw [if_pos h2]; rfl
      · rw [if_neg h2]; rfl
  | cons e rest ih =>
    obtain ⟨k0, v0⟩ := e
    have hfree0 : compsLe b k0 = false := hfree (k0, v0) (by simp)
    have hfrest : ∀ kv ∈ rest, compsLe b kv.1 = false := fun kv h => hfree kv (by simp [h])
    simp only [relocateSub, List.map_cons]
    by_cases hmove : compsLe a k0 = true
    · rw [if_pos hmove]
      have hdec : k0 = a ++ k0.drop a.length := compsLe_decomp a k0 hmove
      rw [lookupFS_cons]
      by_cases hbk : compsLe b k = true
      · rw [if_pos hbk]
        by_cases heq : b ++ k0.drop a.length = k
        · rw [if_pos heq]
          have hpre : a ++ k.drop b.length = k0 := by
            rw [← heq, append_drop_cancel, ← hdec]
          rw [lookupFS_cons, if_pos hpre.symm]
        · rw [if_neg heq]
          have := ih hfrest
          rw [relocateSub] at this
          rw [this, if_pos hbk, lookupFS_cons]
          have hne : ¬ k0 = a ++ k.drop b.length := by
            intro hh
            apply heq
            have hdd : k0.drop a.length = k.drop b.length := by
              rw [hh, append_drop_cancel]
            rw [hdd]
            exact (compsLe_decomp b k hbk).symm
          rw [if_neg hne]
      · rw [if_neg hbk]
        have hne : ¬ b ++ k0.drop a.length = k := by
          intro hh
          have hcon : compsLe b k = true := by rw [← hh]; exact compsLe_append b _
          exact hbk hcon
        rw [if_neg hne]
        have := ih hfrest
        rw [relocateSub] at this
        rw [this, if_neg hbk]
        by_cases hak : compsLe a k = true
        · rw [if_pos hak, if_pos hak]
        · rw [if_neg hak, if_neg hak, lookupFS_cons]
          have hne2 : ¬ k0 = k := by
            intro hh
            subst hh
            exact hak hmove
          rw [if_neg hne2]
    · rw [if_neg hmove, lookupFS_cons]
      by_cases hk0 : k0 = k
      · subst hk0
        rw [if_pos rfl]
        have h1 : compsLe b k0 = false := hfree0
        have h2 : compsLe a k0 = false := by simpa using hmove
        rw [if_neg (by rw [h1]; simp), if_neg (by rw [h2]; simp), lookupFS_cons, if_pos rfl]
      · rw [if_neg hk0]
        have := ih hfrest
        rw [relocateSub] at this
        rw [this]
        by_cases hbk : compsLe b k = true
        · rw [if_pos hbk, if_pos hbk, lookupFS_cons]
          have hne : ¬ k0 = a ++ k.drop b.length := by
            intro hh
            apply absurd hmove
            rw [hh]
            simp [compsLe_append]
          rw [if_neg hne]
        · rw [if_neg hbk, if_neg hbk]
          by_cases hak : compsLe a k = true
          · rw [if_pos hak, if_pos hak]
          · rw [if_neg hak, if_neg hak, lookupFS_cons, if_neg hk0]

/-! ### Canonical-path lemmas -/

theorem joinC_append (cs1 cs2 : Comps) : joinC (cs1 ++ cs2) = joinC cs1 ++ joinC cs2 := by
  induction cs1 with
  | nil => rfl
  | cons c cs ih => simp [joinC, ih]

theorem joinC_ne_nil (cs : Comps) (h : cs ≠ []) : joinC cs ≠ [] := by
  cases cs with
  | nil => exact absurd rfl h
  | cons c cs => simp [joinC]

/-- Components produced by `splitGo` are nonempty and slash-free. -/
theorem splitGo_good : ∀ (s acc : Str), (∀ x ∈ acc, ¬ x = '/') →
    ∀ c ∈ splitGo s acc, c ≠ [] ∧ ∀ x ∈ c, ¬ x = '/' := by
  intro s
  induction s with
  | nil =>
    intro acc hacc c hc
    rw [splitGo] at hc
    by_cases he : acc.isEmpty = true
    · rw [if_pos he] at hc; simp at hc
    · rw [if_neg he] at hc
      simp only [List.mem_singleton] at hc
      subst hc
      refine ⟨?_, ?_⟩
      · simp only [ne_eq, List.reverse_eq_nil_iff]
        intro hh; rw [hh] at he; exact he rfl
      · intro x hx
        exact hacc x (by simpa using hx)
  | cons a as ih =>
    intro acc hacc c hc
    rw [splitGo] at hc
    by_cases ha : (a == '/') = true
    · rw [if_pos ha] at hc
      by_cases he : acc.isEmpty = true
      · rw [if_pos he] at hc
        exact ih [] (by simp) c hc
      · rw [if_neg he] at hc
        rcases List.mem_cons.mp hc with rfl | hc2
        · refine ⟨?_, ?_⟩
          · simp only [ne_eq, List.reverse_eq_nil_iff]
            intro hh; rw [hh] at he; exact he rfl
          · intro x hx
            exact hacc x (by simpa using hx)
        · exact ih [] (by simp) c hc2
    · rw [if_neg ha] at hc
      refine ih (a :: acc) ?_ c hc
      intro x hx
      rcases List.mem_cons.mp hx with rfl | hx2
      · simpa using ha
      · exact hacc x hx2

theorem splitPath_good (p : Str) : ∀ c ∈ splitPath p, c ≠ [] ∧ ∀ x ∈ c, ¬ x = '/' :=
  splitGo_good p [] (by simp)

theorem splitGo_worker : ∀ (cs : Comps) (rest acc : Str),
    (∀ x ∈ rest, ¬ x = '/') → acc.reverse ++ rest ≠ [] →
    (∀ c' ∈ cs, c' ≠ [] ∧ ∀ x ∈ c', ¬ x = '/') →
    splitGo (rest ++ joinC cs) acc = (acc.reverse ++ rest) :: cs := by
  intro cs
  induction cs with
  | nil =>
    intro rest
    induction rest with
    | nil =>
      intro acc _ hne _
      have hacc : ¬ acc.isEmpty = true := by
        simp only [List.append_nil] at hne
        simp only [List.isEmpty_iff]
        intro hh
        rw [hh] at hne
        simp at hne
      show splitGo [] acc = _
      rw [splitGo, if_neg hacc]
      simp
    | cons r rs ihr =>
      intro acc hrest hne _
      have hr : ¬ (r == '/') = true := by
        simpa using hrest r (by simp)
      rw [List.cons_append, splitGo, if_neg hr]
      rw [ihr (r :: acc) (fun x hx => hrest x (by simp [hx])) (by simp) (by simp)]
      simp

  | cons c cs' ih =>
    intro rest
    induction rest with
    | nil =>
      intro acc _ hne hgood
      have hacc : ¬ acc.isEmpty = true := by
        simp only [List.append_nil] at hne
        simp only [List.isEmpty_iff]
        intro hh
        rw [hh] at hne
        simp at hne
      have hjoin : ([] : Str) ++ joinC (c :: cs') = '/' :: (c ++ joinC cs') := by
        simp [joinC]
      rw [hjoin, splitGo]
      simp only [show (('/' : Char) == '/') = true from rfl, if_pos]
      rw [if_neg hacc]
      have hc := hgood c (by simp)
      rw [ih c [] hc.2 (by simpa using hc.1) (fun c' h => hgood c' (by simp [h]))]
      simp
    | cons r rs ihr =>
      intro acc hrest hne hgood
      have hr : ¬ (r == '/') = true := by
        simpa using hrest r (by simp)
      rw [List.cons_append, splitGo, if_neg hr]
      rw [ihr (r :: acc) (fun x hx => hrest x (by simp [hx])) (by simp) hgood]
      simp

/-- `splitPath` inverts `joinC` on good components. -/
theorem splitPath_joinC (cs : Comps) (hgood : ∀ c ∈ cs, c ≠ [] ∧ ∀ x ∈ c, ¬ x = '/') :
    splitPath (joinC cs) = cs := by
  cases cs with
  | nil => rfl
  | cons c cs' =>
    have hc := hgood c (by simp)
    unfold splitPath
    have hjoin : joinC (c :: cs') = '/' :: (c ++ joinC cs') := by simp [joinC]
    rw [hjoin, splitGo]
    simp only [show (('/' : Char) == '/') = true from rfl, if_pos]
    rw [if_pos (by simp)]
    rw [splitGo_worker cs' c [] hc.2 (by simpa using hc.1) (fun c' h => hgood c' (by simp [h]))]
    simp

theorem canonB_split_join (p : Str) (h : canonB p = true) :
    p = joinC (splitPath p) ∧ splitPath p ≠ [] := by
  unfold canonB at h
  simp only [Bool.and_eq_true, beq_iff_eq, Bool.not_eq_true'] at h
  exact ⟨h.2, by simpa [List.isEmpty_iff] using h.1⟩

theorem canonB_joinC (cs : Comps) (hne : cs ≠ [])
    (hgood : ∀ c ∈ cs, c ≠ [] ∧ ∀ x ∈ c, ¬ x = '/') :
    canonB (joinC cs) = true := by
  unfold canonB
  rw [splitPath_joinC cs hgood]
  simp [List.isEmpty_iff, hne]

theorem joinC_getLast : ∀ (cs : Comps), cs ≠ [] →
    (∀ c ∈ cs, c ≠ [] ∧ ∀ x ∈ c, ¬ x = '/') →
    ∃ x, (joinC cs).getLast? = some x ∧ ¬ x = '/' := by
  intro cs
  induction cs with
  | nil => intro h _; exact absurd rfl h
  | cons c cs' ih =>
    intro _ hgood
    by_cases hcs : cs' = []
    · subst hcs
      have hc := hgood c (by simp)
      cases hlast : c.getLast? with
      | none => exact absurd (List.getLast?_eq_none_iff.mp hlast) hc.1
      | some z =>
        have hzmem : z ∈ c := by
          obtain ⟨hh, hz⟩ := List.mem_getLast?_eq_getLast (Option.mem_def.mpr hlast)
          rw [hz]
          exact List.getLast_mem hh
        refine ⟨z, ?_, hc.2 z hzmem⟩
        have h1 : joinC [c] = ['/'] ++ c := by simp [joinC]
        rw [h1, List.getLast?_append_of_ne_nil _ hc.1, hlast]
    · obtain ⟨x, hx1, hx2⟩ := ih hcs (fun c' h => hgood c' (by simp [h]))
      refine ⟨x, ?_, hx2⟩
      have h1 : joinC (c :: cs') = ('/' :: c) ++ joinC cs' := by simp [joinC]
      rw [h1, List.getLast?_append_of_ne_nil _ (joinC_ne_nil cs' hcs), hx1]

theorem findIdx?_no_yes {α : Type} (p : α → Bool) :
    ∀ (xs : List α) (y : α) (ys : List α), (∀ x ∈ xs, p x = false) → p y = true →
      List.findIdx? p (xs ++ y :: ys) = some xs.length := by
  intro xs
  induction xs with
  | nil =>
    intro y ys _ hy
    simp [List.findIdx?_cons, hy]
  | cons a as ih =>
    intro y ys hno hy
    rw [List.cons_append, List.findIdx?_cons, hno a (by simp)]
    simp only [Bool.false_eq_true, if_false]
    rw [List.findIdx?_succ, ih y ys (fun x hx => hno x (by simp [hx])) hy]
    simp

theorem dropWhile_of_head_false {α : Type} (p : α → Bool) (l : List α)
    (h : ∀ z, l.head? = some z → p z = false) : l.dropWhile p = l := by
  cases l with
  | nil => rfl
  | cons a as =>
    rw [List.dropWhile_cons, h a rfl]
    simp only [Bool.false_eq_true, if_false]

theorem dirnameStr_joinC (cs : Comps) (c : Str)
    (hgood : ∀ c' ∈ cs ++ [c], c' ≠ [] ∧ ∀ x ∈ c', ¬ x = '/') :
    dirnameStr (joinC (cs ++ [c])) = if cs = [] then ['/'] else joinC cs := by
  have hc := hgood c (by simp)
  have hp : joinC (cs ++ [c]) = joinC cs ++ ('/' :: c) := by
    rw [joinC_append]
    simp [joinC]
  have hrev : (joinC (cs ++ [c])).reverse = c.reverse ++ '/' :: (joinC cs).reverse := by
    rw [hp, List.reverse_append, List.reverse_cons, List.append_assoc]
    rfl
  unfold dirnameStr
  rw [hrev, findIdx?_no_yes _ c.reverse '/' _
    (fun x hx => by simpa using (hc.2 x (by simpa using hx))) (by simp)]
  simp only [List.length_reverse]
  have hlen : (joinC (cs ++ [c])).length - c.length = (joinC cs).length + 1 := by
    rw [hp]
    simp only [List.length_append, List.length_cons]
    omega
  have htake : (joinC (cs ++ [c])).take ((joinC cs).length + 1) = joinC cs ++ ['/'] := by
    rw [hp]
    rw [List.take_append_eq_append_take]
    rw [List.take_of_length_le (by simp)]
    congr 1
    have : (joinC cs).length + 1 - (joinC cs).length = 1 := by omega
    rw [this]
    rfl
  rw [hlen, htake]
  by_cases hcs : cs = []
  · subst hcs
    rfl
  · rw [if_neg hcs]
    have hmem : ∃ y ∈ joinC cs, (y == '/') = false := by
      cases hcse : cs with
      | nil => exact absurd hcse hcs
      | cons c0 cs0 =>
        have hc0 := hgood c0 (by simp [hcse])
        obtain ⟨y, hy⟩ := List.exists_mem_of_ne_nil c0 hc0.1
        refine ⟨y, ?_, by simpa using hc0.2 y hy⟩
        simp [joinC, hy]
    have hall : ((joinC cs ++ ['/']).all fun x => x == '/') = false := by
      obtain ⟨y, hy1, hy2⟩ := hmem
      rw [List.all_eq_false]
      exact ⟨y, by simp [hy1], by simp [hy2]⟩
    rw [hall]
    simp only [Bool.false_eq_true, if_false]
    unfold rstripChar
    rw [List.reverse_append]
    simp only [List.reverse_cons, List.reverse_nil, List.nil_append, List.singleton_append]
    rw [List.dropWhile_cons]
    simp only [show (('/' : Char) == '/') = true from rfl, if_pos]
    obtain ⟨z, hz1, hz2⟩ := joinC_getLast cs hcs (fun c' h => hgood c' (by simp [h]))
    rw [dropWhile_of_head_false _ _ (fun w hw => by
      rw [List.head?_reverse] at hw
      rw [hz1] at hw
      injection hw with hw
      subst hw
      simpa using hz2)]
    simp

/-! ### Resolution through real directories -/

theorem prefDirB_iff (fs : FS) (cs : Comps) :
    prefDirB fs cs = true ↔ PrefixesDir fs cs := by
  unfold prefDirB PrefixesDir
  rw [List.all_eq_true]
  constructor
  · intro h j hj hlt
    have := h j (List.mem_range.mpr hlt)
    rcases Bool.or_eq_true_iff.mp this with h1 | h1
    · exfalso
      have : j = 0 := by simpa using h1
      omega
    · simpa using h1
  · intro h j hj
    rcases Nat.eq_zero_or_pos j with rfl | hpos
    · simp
    · rw [Bool.or_eq_true_iff]
      right
      have := h j hpos (List.mem_range.mp hj)
      simp [this]

theorem walkGo_pre (fs : FS) : ∀ (l acc : Comps), l ≠ [] →
    (∀ j, 0 < j → j < l.length → lookupFS fs (acc ++ l.take j) = some Node.dir) →
    walkGo fs acc l = (match lookupFS fs (acc ++ l) with
      | some Node.dir => .done (acc ++ l)
      | some (Node.file _) => .done (acc ++ l)
      | some (Node.symlink t) => .jump t []
      | none => .fail) := by
  intro l
  induction l with
  | nil => intro acc h; exact absurd rfl h
  | cons c rest ih =>
    intro acc _ hdirs
    cases rest with
    | nil =>
      rw [walkGo]
      cases hl : lookupFS fs (acc ++ [c]) with
      | none => rfl
      | some n => cases n <;> rfl
    | cons c2 rest2 =>
      rw [walkGo]
      have h1 : lookupFS fs (acc ++ [c]) = some Node.dir := by
        have := hdirs 1 (by omega) (by simp only [List.length_cons]; omega)
        simpa using this
      rw [h1]
      have hshift : ∀ j, 0 < j → j < (c2 :: rest2).length →
          lookupFS fs ((acc ++ [c]) ++ (c2 :: rest2).take j) = some Node.dir := by
        intro j hj hlt
        have := hdirs (j + 1) (by omega) (by simp only [List.length_cons] at hlt ⊢; omega)
        rw [List.append_assoc]
        simpa using this
      rw [ih (acc ++ [c]) (by simp) hshift, List.append_assoc]
      rfl

theorem resolve_nil (fs : FS) (fuel : Nat) (acc : Comps) :
    resolveComps fs fuel acc [] = some (acc, fuel) := by
  cases fuel <;> rfl

theorem resolve_pre (fs : FS) (fuel : Nat) (cs : Comps) (hne : cs ≠ [])
    (hdirs : PrefixesDir fs cs) :
    resolveComps fs fuel [] cs = (match lookupFS fs cs with
      | some Node.dir => some (cs, fuel)
      | some (Node.file _) => some (cs, fuel)
      | some (Node.symlink t) =>
        if t.isEmpty then none
        else match fuel with
          | 0 => none
          | f + 1 => resolveComps fs f [] (splitPath t)
      | none => none) := by
  rw [resolveComps, walkGo_pre fs cs [] hne (by simpa using hdirs)]
  simp only [List.nil_append]
  cases lookupFS fs cs with
  | none => rfl
  | some n =>
    cases n with
    | dir => rfl
    | file content => rfl
    | symlink t =>
      dsimp only
      by_cases ht : t.isEmpty = true
      · rw [if_pos ht, if_pos ht]
      · rw [if_neg ht, if_neg ht]
        cases fuel with
        | zero => rfl
        | succ f =>
          dsimp only
          rw [List.append_nil]

/-- `canonB` paths are nonempty (they start with a separator). -/
theorem canonB_ne_nil (p : Str) (h : canonB p = true) : p.isEmpty = false := by
  obtain ⟨hj, hne⟩ := canonB_split_join p h
  cases hcs : splitPath p with
  | nil => exact absurd hcs hne
  | cons c cs =>
    have hpn : p ≠ [] := by
      rw [hj, hcs]
      exact joinC_ne_nil _ (by simp)
    cases p with
    | nil => exact absurd rfl hpn
    | cons _ _ => rfl

theorem pathExists_of_dir (fs : FS) (p : Str) (hc : canonB p = true)
    (hdirs : PrefixesDir fs (splitPath p))
    (hn : lookupFS fs (splitPath p) = some Node.dir) :
    pathExists fs p = true := by
  unfold pathExists
  rw [canonB_ne_nil p hc]
  simp only [Bool.false_eq_true, if_false]
  rw [resolve_pre fs FUEL _ (canonB_split_join p hc).2 hdirs, hn]
  rfl

theorem pathExists_of_file (fs : FS) (p : Str) (ct : Nat) (hc : canonB p = true)
    (hdirs : PrefixesDir fs (splitPath p))
    (hn : lookupFS fs (splitPath p) = some (Node.file ct)) :
    pathExists fs p = true := by
  unfold pathExists
  rw [canonB_ne_nil p hc]
  simp only [Bool.false_eq_true, if_false]
  rw [resolve_pre fs FUEL _ (canonB_split_join p hc).2 hdirs, hn]
  rfl

theorem pathExists_of_none (fs : FS) (p : Str) (hc : canonB p = true)
    (hdirs : PrefixesDir fs (splitPath p))
    (hn : lookupFS fs (splitPath p) = none) :
    pathExists fs p = false := by
  unfold pathExists
  rw [canonB_ne_nil p hc]
  simp only [Bool.false_eq_true, if_false]
  rw [resolve_pre fs FUEL _ (canonB_split_join p hc).2 hdirs, hn]
  rfl

theorem isDirPath_of_dir (fs : FS) (p : Str) (hc : canonB p = true)
    (hdirs : PrefixesDir fs (splitPath p))
    (hn : lookupFS fs (splitPath p) = some Node.dir) :
    isDirPath fs p = true := by
  unfold isDirPath
  rw [canonB_ne_nil p hc]
  simp only [Bool.false_eq_true, if_false]
  rw [resolve_pre fs FUEL _ (canonB_split_join p hc).2 hdirs, hn]
  dsimp only
  rw [isDirKey_ne_nil fs _ (canonB_split_join p hc).2, hn]

theorem isDirPath_of_file (fs : FS) (p : Str) (ct : Nat) (hc : canonB p = true)
    (hdirs : PrefixesDir fs (splitPath p))
    (hn : lookupFS fs (splitPath p) = some (Node.file ct)) :
    isDirPath fs p = false := by
  unfold isDirPath
  rw [canonB_ne_nil p hc]
  simp only [Bool.false_eq_true, if_false]
  rw [resolve_pre fs FUEL _ (canonB_split_join p hc).2 hdirs, hn]
  dsimp only
  rw [isDirKey_ne_nil fs _ (canonB_split_join p hc).2, hn]

theorem isDirPath_of_none (fs : FS) (p : Str) (hc : canonB p = true)
    (hdirs : PrefixesDir fs (splitPath p))
    (hn : lookupFS fs (splitPath p) = none) :
    isDirPath fs p = false := by
  unfold isDirPath
  rw [canonB_ne_nil p hc]
  simp only [Bool.false_eq_true, if_false]
  rw [resolve_pre fs FUEL _ (canonB_split_join p hc).2 hdirs, hn]

theorem isFilePath_of_file (fs : FS) (p : Str) (ct : Nat) (hc : canonB p = true)
    (hdirs : PrefixesDir fs (splitPath p))
    (hn : lookupFS fs (splitPath p) = some (Node.file ct)) :
    isFilePath fs p = true := by
  unfold isFilePath
  rw [resolve_pre fs FUEL _ (canonB_split_join p hc).2 hdirs, hn]
  dsimp only
  rw [hn]

theorem isFilePath_of_dir (fs : FS) (p : Str) (hc : canonB p = true)
    (hdirs : PrefixesDir fs (splitPath p))
    (hn : lookupFS fs (splitPath p) = some Node.dir) :
    isFilePath fs p = false := by
  unfold isFilePath
  rw [resolve_pre fs FUEL _ (canonB_split_join p hc).2 hdirs, hn]
  dsimp only
  rw [hn]

theorem stat_dev_of_dir (env : Env) (fs : FS) (p : Str) (hc : canonB p = true)
    (hdirs : PrefixesDir fs (splitPath p))
    (hn : lookupFS fs (splitPath p) = some Node.dir) :
    stat_dev env fs p = .ok (env.dev (splitPath p)) := by
  unfold stat_dev
  rw [resolve_pre fs FUEL _ (canonB_split_join p hc).2 hdirs, hn]

theorem stat_dev_of_file (env : Env) (fs : FS) (p : Str) (ct : Nat) (hc : canonB p = true)
    (hdirs : PrefixesDir fs (splitPath p))
    (hn : lookupFS fs (splitPath p) = some (Node.file ct)) :
    stat_dev env fs p = .ok (env.dev (splitPath p)) := by
  unfold stat_dev
  rw [resolve_pre fs FUEL _ (canonB_split_join p hc).2 hdirs, hn]


/-! ## Resolution and step lemmas for the reconciliation proofs -/

theorem take_dropLast {α : Type} (l : List α) (j : Nat) (hj : j < l.length) :
    l.dropLast.take j = l.take j := by
  rw [List.dropLast_eq_take, List.take_take]
  congr 1
  omega

theorem lresolveKey_pre (fs : FS) (p : Str) (hc : canonB p = true)
    (hdirs : PrefixesDir fs (splitPath p)) :
    lresolveKey fs p = some (splitPath p) := by
  obtain ⟨hj, hne⟩ := canonB_split_join p hc
  unfold lresolveKey
  cases hgl : (splitPath p).getLast? with
  | none => exact absurd (List.getLast?_eq_none_iff.mp hgl) hne
  | some lastC =>
    have hdecomp : splitPath p = (splitPath p).dropLast ++ [lastC] := getLast?_decomp _ _ hgl
    by_cases hdl : (splitPath p).dropLast = []
    · rw [hdl, resolve_nil]
      dsimp only
      rw [show isDirKey fs [] = true from rfl]
      simp only [if_pos]
      rw [List.nil_append]
      rw [hdecomp, hdl]
      rfl
    · have hlen2 : 1 < (splitPath p).length := by
        cases hsp : splitPath p with
        | nil => exact absurd hsp hne
        | cons a as =>
          cases as with
          | nil => rw [hsp] at hdl; simp at hdl
          | cons b bs => simp
      have hdirs' : PrefixesDir fs (splitPath p).dropLast := by
        intro j hj0 hjlt
        rw [List.length_dropLast] at hjlt
        rw [take_dropLast _ j (by omega)]
        exact hdirs j hj0 (by omega)
      have hdldir : lookupFS fs (splitPath p).dropLast = some Node.dir := by
        have hlt : (splitPath p).length - 1 < (splitPath p).length := by omega
        have := hdirs ((splitPath p).length - 1) (by omega) hlt
        rw [← List.dropLast_eq_take] at this
        exact this
      rw [resolve_pre fs FUEL _ hdl hdirs', hdldir]
      dsimp only
      rw [isDirKey_ne_nil fs _ hdl, hdldir]
      simp only [if_pos]
      rw [← hdecomp]

theorem readlink_pre_sym (fs : FS) (p : Str) (t : Str) (hc : canonB p = true)
    (hdirs : PrefixesDir fs (splitPath p))
    (hn : lookupFS fs (splitPath p) = some (Node.symlink t)) :
    readlinkPath fs p = some t := by
  unfold readlinkPath
  rw [lresolveKey_pre fs p hc hdirs]
  dsimp only
  rw [hn]

theorem islink_pre_sym (fs : FS) (p : Str) (t : Str) (hc : canonB p = true)
    (hdirs : PrefixesDir fs (splitPath p))
    (hn : lookupFS fs (splitPath p) = some (Node.symlink t)) :
    islinkPath fs p = true := by
  unfold islinkPath
  rw [readlink_pre_sym fs p t hc hdirs hn]
  rfl

theorem islink_pre_nonsym (fs : FS) (p : Str) (hc : canonB p = true)
    (hdirs : PrefixesDir fs (splitPath p))
    (hn : ∀ t, ¬ lookupFS fs (splitPath p) = some (Node.symlink t)) :
    islinkPath fs p = false := by
  unfold islinkPath readlinkPath
  rw [lresolveKey_pre fs p hc hdirs]
  dsimp only
  cases hl : lookupFS fs (splitPath p) with
  | none => rfl
  | some n =>
    cases n with
    | file ct => rfl
    | dir => rfl
    | symlink t => exact absurd hl (hn t)

theorem mkGo_noop (fs : FS) : ∀ (cs acc : Comps),
    (∀ j, 0 < j → j ≤ cs.length → lookupFS fs (acc ++ cs.take j) = some Node.dir) →
    mkGo fs acc cs = .ok fs := by
  intro cs
  induction cs with
  | nil => intro acc _; rfl
  | cons c rest ih =>
    intro acc hdirs
    rw [mkGo]
    have h1 : lookupFS fs (acc ++ [c]) = some Node.dir := by
      have := hdirs 1 (by omega) (by simp only [List.length_cons]; omega)
      simpa using this
    rw [h1]
    refine ih (acc ++ [c]) ?_
    intro j hj0 hjle
    have := hdirs (j + 1) (by omega) (by simp only [List.length_cons]; omega)
    rw [List.append_assoc]
    simpa using this

theorem os_makedirs_noop (fs : FS) (p : Str)
    (h : ∀ j, 0 < j → j ≤ (splitPath p).length → lookupFS fs ((splitPath p).take j) = some Node.dir) :
    os_makedirs fs p = .ok fs := by
  unfold os_makedirs
  refine mkGo_noop fs (splitPath p) [] ?_
  intro j hj0 hjle
  rw [List.nil_append]
  exact h j hj0 hjle

theorem mem_eraseKey_sub (k : Comps) : ∀ (fs : FS) (kv : Comps × Node), kv ∈ eraseKey k fs → kv ∈ fs := by
  intro fs
  induction fs with
  | nil => intro kv h; simp [eraseKey] at h
  | cons e rest ih =>
    intro kv h
    obtain ⟨k0, v0⟩ := e
    rw [eraseKey] at h
    by_cases h0 : k0 = k
    · rw [if_pos h0] at h
      exact List.mem_cons_of_mem _ (ih kv h)
    · rw [if_neg h0] at h
      rcases List.mem_cons.mp h with rfl | h2
      · exact List.mem_cons_self _ _
      · exact List.mem_cons_of_mem _ (ih kv h2)

theorem mem_relocate (a b : Comps) (fs : FS) (kv : Comps × Node) (h : kv ∈ relocateSub a b fs) :
    ∃ kv0 ∈ fs, kv = (if compsLe a kv0.1 = true then (b ++ kv0.1.drop a.length, kv0.2) else kv0) := by
  unfold relocateSub at h
  obtain ⟨kv0, h1, h2⟩ := List.mem_map.mp h
  exact ⟨kv0, h1, h2.symm⟩

theorem lookup_addExplicit (t : Task) (fs : FS) (k : Comps)
    (hfree : ∀ kv ∈ fs, compsLe (dC t) kv.1 = false) :
    lookupFS (addExplicit t fs) k =
      if k = sC t then some (.symlink t.dst)
      else if compsLe (dC t) k = true then lookupFS fs (sC t ++ k.drop (dC t).length)
      else if compsLe (sC t) k = true then none
      else lookupFS fs k := by
  unfold addExplicit
  rw [lookup_insertKV, lookup_relocateSub _ _ _ _ hfree]

theorem lookAddR_nil (fs0 : FS) (k : Comps) : lookAddR fs0 [] k = lookupFS fs0 k := rfl

theorem lookAddR_cons (fs0 : FS) (t : Task) (rs : List Task) (k : Comps) :
    lookAddR fs0 (t :: rs) k =
      (if k = sC t then some (.symlink t.dst)
       else if compsLe (dC t) k = true then lookAddR fs0 rs (sC t ++ k.drop (dC t).length)
       else if compsLe (sC t) k = true then none
       else lookAddR fs0 rs k) := rfl

theorem ne_of_pre {a b k : Comps} (hk : compsLe a k = true) (hb : compsLe a b = false) :
    k ≠ b := by
  intro e
  rw [e] at hk
  rw [hk] at hb
  exact Bool.noConfusion hb

theorem pre_false_of_sep {a b k : Comps} (hb : compsLe b k = true)
    (hab : compsLe a b = false) (hba : compsLe b a = false) : compsLe a k = false := by
  cases h : compsLe a k with
  | false => rfl
  | true =>
    rcases compsLe_total_of_common a b k h hb with h2 | h2
    · rw [h2] at hab; exact Bool.noConfusion hab
    · rw [h2] at hba; exact Bool.noConfusion hba

theorem lookAddR_snoc (fs0 : FS) (t : Task)
    (hfree : ∀ kv ∈ fs0, compsLe (dC t) kv.1 = false) :
    ∀ (rs : List Task) (k : Comps),
      lookAddR (addExplicit t fs0) rs k = lookAddR fs0 (rs ++ [t]) k := by
  intro rs
  induction rs with
  | nil =>
    intro k
    rw [List.nil_append, lookAddR_nil, lookAddR_cons, lookAddR_nil, lookAddR_nil]
    exact lookup_addExplicit t fs0 k hfree
  | cons u rs' ih =>
    intro k
    rw [List.cons_append, lookAddR_cons, lookAddR_cons]
    simp only [ih]

theorem lookup_addAll : ∀ (ts : List Task) (fs0 : FS),
    dstsFree fs0 ts → dstsNoSrc ts → dstsPW ts →
    ∀ k, lookupFS (addAllExplicit ts fs0) k = lookAddR fs0 ts.reverse k := by
  intro ts
  induction ts with
  | nil => intro fs0 _ _ _ k; rfl
  | cons t rest ih =>
    intro fs0 hfree hns hpw k
    have hfreeT : ∀ kv ∈ fs0, compsLe (dC t) kv.1 = false :=
      hfree t (List.mem_cons_self _ _)
    have hpwc := List.pairwise_cons.mp hpw
    have hfree' : dstsFree (addExplicit t fs0) rest := by
      intro u hu kv hkv
      unfold addExplicit insertKV at hkv
      rcases List.mem_cons.mp hkv with rfl | hkv2
      · exact hns u (List.mem_cons_of_mem _ hu) t (List.mem_cons_self _ _)
      · have hkv3 := mem_eraseKey_sub _ _ _ hkv2
        obtain ⟨kv0, hkv0, hform⟩ := mem_relocate _ _ _ _ hkv3
        by_cases hm : compsLe (sC t) kv0.1 = true
        · rw [if_pos hm] at hform
          rw [hform]
          dsimp only
          have hut := hpwc.1 u hu
          exact pre_false_of_sep (compsLe_append (dC t) _) hut.2 hut.1
        · rw [if_neg hm] at hform
          rw [hform]
          exact hfree u (List.mem_cons_of_mem _ hu) kv0 hkv0
    have hns' : dstsNoSrc rest := fun a ha b hb =>
      hns a (List.mem_cons_of_mem _ ha) b (List.mem_cons_of_mem _ hb)
    calc lookupFS (addAllExplicit (t :: rest) fs0) k
        = lookupFS (addAllExplicit rest (addExplicit t fs0)) k := rfl
      _ = lookAddR (addExplicit t fs0) rest.reverse k := ih _ hfree' hns' hpwc.2 k
      _ = lookAddR fs0 (rest.reverse ++ [t]) k := lookAddR_snoc fs0 t hfreeT rest.reverse k
      _ = lookAddR fs0 (t :: rest).reverse k := by rw [List.reverse_cons]

theorem lookAddR_congr_tail (fs0 : FS) (u : Task) (A B : List Task)
    (h : ∀ k0, lookAddR fs0 A k0 = lookAddR fs0 B k0) (k : Comps) :
    lookAddR fs0 (u :: A) k = lookAddR fs0 (u :: B) k := by
  rw [lookAddR_cons, lookAddR_cons]
  simp only [h]

theorem lookAddR_swap (fs0 : FS) (u t : Task)
    (h1 : compsLe (sC u) (sC t) = false) (h2 : compsLe (sC t) (sC u) = false)
    (h3 : compsLe (dC u) (dC t) = false) (h4 : compsLe (dC t) (dC u) = false)
    (h5 : compsLe (dC u) (sC t) = false) (h6 : compsLe (sC t) (dC u) = false)
    (h7 : compsLe (dC t) (sC u) = false) (h8 : compsLe (sC u) (dC t) = false)
    (rs : List Task) (k : Comps) :
    lookAddR fs0 (u :: t :: rs) k = lookAddR fs0 (t :: u :: rs) k := by
  simp only [lookAddR_cons]
  by_cases e1 : k = sC u
  · subst e1
    have g1 : sC u ≠ sC t := ne_of_pre (compsLe_refl (sC u)) h1
    simp [g1, h7, h2]
  · by_cases e2 : compsLe (dC u) k = true
    · have hk : compsLe (sC u) (sC u ++ k.drop (dC u).length) = true := compsLe_append _ _
      have g2 : sC u ++ k.drop (dC u).length ≠ sC t := ne_of_pre hk h1
      have g3 : compsLe (dC t) (sC u ++ k.drop (dC u).length) = false :=
        pre_false_of_sep hk h7 h8
      have g4 : compsLe (sC t) (sC u ++ k.drop (dC u).length) = false :=
        pre_false_of_sep hk h2 h1
      have g5 : k ≠ sC t := ne_of_pre e2 h5
      have g6 : compsLe (dC t) k = false := pre_false_of_sep e2 h4 h3
      have g7 : compsLe (sC t) k = false := pre_false_of_sep e2 h6 h5
      simp [e1, e2, g2, g3, g4, g5, g6, g7]
    · by_cases e3 : compsLe (sC u) k = true
      · have g8 : k ≠ sC t := ne_of_pre e3 h1
        have g9 : compsLe (dC t) k = false := pre_false_of_sep e3 h7 h8
        have g10 : compsLe (sC t) k = false := pre_false_of_sep e3 h2 h1
        simp [e1, e2, e3, g8, g9, g10]
      · by_cases f1 : k = sC t
        · have g0 : sC t ≠ sC u := ne_of_pre (compsLe_refl (sC t)) h2
          simp [f1, g0, h5, h1]
        · by_cases f2 : compsLe (dC t) k = true
          · have hk2 : compsLe (sC t) (sC t ++ k.drop (dC t).length) = true :=
              compsLe_append _ _
            have g11 : sC t ++ k.drop (dC t).length ≠ sC u := ne_of_pre hk2 h2
            have g12 : compsLe (dC u) (sC t ++ k.drop (dC t).length) = false :=
              pre_false_of_sep hk2 h5 h6
            have g13 : compsLe (sC u) (sC t ++ k.drop (dC t).length) = false :=
              pre_false_of_sep hk2 h1 h2
            simp [e1, e2, e3, f1, f2, g11, g12, g13]
          · by_cases f3 : compsLe (sC t) k = true
            · simp [e1, e2, e3, f1, f2, f3]
            · simp [e1, e2, e3, f1, f2, f3]

theorem sepB_spec {t u : Task} (h : sepB t u = true) :
    compsLe (sC u) (sC t) = false ∧ compsLe (sC t) (sC u) = false ∧
    compsLe (dC u) (dC t) = false ∧ compsLe (dC t) (dC u) = false ∧
    compsLe (dC u) (sC t) = false ∧ compsLe (sC t) (dC u) = false ∧
    compsLe (dC t) (sC u) = false ∧ compsLe (sC u) (dC t) = false := by
  unfold sepB at h
  simp only [Bool.and_eq_true, Bool.not_eq_true'] at h
  exact ⟨h.1.1.1.1.1.1.1, h.1.1.1.1.1.1.2, h.1.1.1.1.1.2, h.1.1.1.1.2,
    h.1.1.1.2, h.1.1.2, h.1.2, h.2⟩

theorem nestSepB_spec {a b : Task} (h : nestSepB a b = true) :
    compsLe (sC b) (sC a) = false ∧ compsLe (dC a) (dC b) = false ∧
    compsLe (dC b) (dC a) = false ∧ compsLe (dC a) (sC b) = false ∧
    compsLe (sC b) (dC a) = false ∧ compsLe (dC b) (sC a) = false ∧
    compsLe (sC a) (dC b) = false := by
  unfold nestSepB at h
  simp only [Bool.and_eq_true, Bool.not_eq_true'] at h
  exact ⟨h.1.1.1.1.1.1, h.1.1.1.1.1.2, h.1.1.1.1.2, h.1.1.1.2, h.1.1.2, h.1.2, h.2⟩

theorem nestSepB_of {a b : Task}
    (n1 : compsLe (sC b) (sC a) = false) (n2 : compsLe (dC a) (dC b) = false)
    (n3 : compsLe (dC b) (dC a) = false) (n4 : compsLe (dC a) (sC b) = false)
    (n5 : compsLe (sC b) (dC a) = false) (n6 : compsLe (dC b) (sC a) = false)
    (n7 : compsLe (sC a) (dC b) = false) : nestSepB a b = true := by
  unfold nestSepB
  rw [n1, n2, n3, n4, n5, n6, n7]
  rfl

theorem nestSepB_ne {a b : Task} (h : nestSepB a b = true) : a ≠ b := by
  intro he
  obtain ⟨n1, _⟩ := nestSepB_spec h
  rw [he, compsLe_refl] at n1
  exact Bool.noConfusion n1

theorem lookAddR_hoist (fs0 : FS) (t : Task) :
    ∀ (rs1 : List Task), (∀ u ∈ rs1, sepB t u = true) → ∀ (rs2 : List Task) (k : Comps),
      lookAddR fs0 (rs1 ++ t :: rs2) k = lookAddR fs0 (t :: (rs1 ++ rs2)) k := by
  intro rs1
  induction rs1 with
  | nil => intro _ rs2 k; rfl
  | cons u rs1' ih =>
    intro hsep rs2 k
    obtain ⟨h1, h2, h3, h4, h5, h6, h7, h8⟩ := sepB_spec (hsep u (List.mem_cons_self _ _))
    have step1 : ∀ k0, lookAddR fs0 (rs1' ++ t :: rs2) k0 = lookAddR fs0 (t :: (rs1' ++ rs2)) k0 :=
      fun k0 => ih (fun v hv => hsep v (List.mem_cons_of_mem _ hv)) rs2 k0
    rw [List.cons_append, lookAddR_congr_tail fs0 u _ _ step1 k,
      lookAddR_swap fs0 u t h1 h2 h3 h4 h5 h6 h7 h8 (rs1' ++ rs2) k]
    rfl

theorem lookup_none_of_free (b : Comps) : ∀ (fs : FS),
    (∀ kv ∈ fs, compsLe b kv.1 = false) → ∀ k, compsLe b k = true → lookupFS fs k = none := by
  intro fs
  induction fs with
  | nil => intro _ k _; rfl
  | cons e rest ih =>
    intro hfree k hbk
    obtain ⟨k0, v0⟩ := e
    rw [lookupFS_cons]
    by_cases he : k0 = k
    · subst he
      have h1 := hfree (k0, v0) (List.mem_cons_self _ _)
      rw [hbk] at h1
      exact Bool.noConfusion h1
    · rw [if_neg he]
      exact ih (fun kv hkv => hfree kv (List.mem_cons_of_mem _ hkv)) k hbk

theorem compsLe_take (l : Comps) (j : Nat) : compsLe (l.take j) l = true :=
  (compsLe_isPrefix _ _).mpr (List.take_prefix j l)

theorem typeOk_notlink {isD : Bool} {o : Option Node} (h : typeOk isD o = true) :
    ∀ t, ¬ o = some (.symlink t) := by
  intro t he
  subst he
  cases isD <;> exact Bool.noConfusion h

theorem typeOk_cases {isD : Bool} {o : Option Node} (h : typeOk isD o = true) :
    (isD = true ∧ o = some .dir) ∨ (isD = false ∧ ∃ ct, o = some (.file ct)) := by
  cases isD with
  | true =>
    cases o with
    | none => exact Bool.noConfusion h
    | some n =>
      cases n with
      | dir => exact Or.inl ⟨rfl, rfl⟩
      | file ct => exact Bool.noConfusion h
      | symlink tg => exact Bool.noConfusion h
  | false =>
    cases o with
    | none => exact Bool.noConfusion h
    | some n =>
      cases n with
      | dir => exact Bool.noConfusion h
      | file ct => exact Or.inr ⟨rfl, ct, rfl⟩
      | symlink tg => exact Bool.noConfusion h

theorem addReady_facts (fs : FS) (t : Task) (h : AddReady fs t) :
    islinkPath fs t.src = false ∧ pathExists fs t.src = true ∧
    lookupFS fs (dC t) = none ∧ pathExists fs t.dst = false ∧
    isDirPath fs t.dst = false := by
  have hnl : ∀ t', ¬ lookupFS fs (splitPath t.src) = some (.symlink t') :=
    fun t' he => typeOk_notlink h.srcType t' he
  have h1 : islinkPath fs t.src = false := islink_pre_nonsym fs t.src h.srcCanon h.srcDirs hnl
  have h2 : pathExists fs t.src = true := by
    rcases typeOk_cases h.srcType with ⟨_, hd⟩ | ⟨_, ct, hf⟩
    · exact pathExists_of_dir fs t.src h.srcCanon h.srcDirs hd
    · exact pathExists_of_file fs t.src ct h.srcCanon h.srcDirs hf
  have h3 : lookupFS fs (dC t) = none :=
    lookup_none_of_free (dC t) fs h.dstFree (dC t) (compsLe_refl _)
  have h4 : pathExists fs t.dst = false := pathExists_of_none fs t.dst h.dstCanon h.dstDirs h3
  have h5 : isDirPath fs t.dst = false := isDirPath_of_none fs t.dst h.dstCanon h.dstDirs h3
  exact ⟨h1, h2, h3, h4, h5⟩

theorem confirm_ok (env : Env) (fs : FS) (t : Task) (h : AddReady fs t)
    (hask : ∀ a b, env.ask a b = true) :
    confirm_move env fs t.src t.dst = .ok true := by
  obtain ⟨d1, hs1⟩ : ∃ d, stat_dev env fs t.src = .ok d := by
    rcases typeOk_cases h.srcType with ⟨_, hd⟩ | ⟨_, ct, hf⟩
    · exact ⟨_, stat_dev_of_dir env fs t.src h.srcCanon h.srcDirs hd⟩
    · exact ⟨_, stat_dev_of_file env fs t.src ct h.srcCanon h.srcDirs hf⟩
  have hsplit := canonB_split_join t.dst h.dstCanon
  have hgood := splitPath_good t.dst
  have hdd : splitPath t.dst = dC t := rfl
  rw [hdd] at hsplit hgood
  obtain ⟨c, hc⟩ : ∃ c, (dC t).getLast? = some c := by
    cases hgl : (dC t).getLast? with
    | none => exact absurd (List.getLast?_eq_none_iff.mp hgl) hsplit.2
    | some c => exact ⟨c, rfl⟩
  have hdecomp : dC t = (dC t).dropLast ++ [c] := getLast?_decomp _ _ hc
  have hlendl : (dC t).dropLast.length = (dC t).length - 1 := List.length_dropLast _
  have hdeep := h.dstDeep
  have hcsne : (dC t).dropLast ≠ [] := by
    intro he
    rw [he] at hlendl
    simp at hlendl
    omega
  have hgood2 : ∀ c' ∈ (dC t).dropLast ++ [c], c' ≠ [] ∧ ∀ x ∈ c', ¬ x = '/' := by
    intro c' hc'
    exact hgood c' (by rw [hdecomp]; exact hc')
  have hdst_eq : t.dst = joinC ((dC t).dropLast ++ [c]) := by
    conv_rhs => rw [← hdecomp]
    exact hsplit.1
  have hdirname : dirnameStr t.dst = joinC (dC t).dropLast := by
    rw [hdst_eq, dirnameStr_joinC _ c hgood2, if_neg hcsne]
  have hcstake : (dC t).dropLast = (dC t).take ((dC t).length - 1) := List.dropLast_eq_take _
  have hcsdir : lookupFS fs (dC t).dropLast = some Node.dir := by
    rw [hcstake]
    exact h.dstDirs ((dC t).length - 1) (by omega) (by omega)
  have hgoodcs : ∀ c' ∈ (dC t).dropLast, c' ≠ [] ∧ ∀ x ∈ c', ¬ x = '/' := by
    intro c' hc'
    exact hgood c' (by rw [hdecomp]; exact List.mem_append_left _ hc')
  have hcanonP : canonB (joinC (dC t).dropLast) = true := canonB_joinC _ hcsne hgoodcs
  have hsplitP : splitPath (joinC (dC t).dropLast) = (dC t).dropLast := splitPath_joinC _ hgoodcs
  have hpreP : PrefixesDir fs (splitPath (joinC (dC t).dropLast)) := by
    rw [hsplitP]
    intro j hj0 hjlt
    rw [hlendl] at hjlt
    rw [take_dropLast _ j (by omega)]
    exact h.dstDirs j hj0 (by omega)
  have hs2 : stat_dev env fs (joinC (dC t).dropLast) = .ok (env.dev (dC t).dropLast) := by
    have hx := stat_dev_of_dir env fs (joinC (dC t).dropLast) hcanonP hpreP
      (by rw [hsplitP]; exact hcsdir)
    rw [hsplitP] at hx
    exact hx
  unfold confirm_move is_same_device
  rw [hdirname, hs1, hs2]
  dsimp only
  cases hb : d1 == env.dev (dC t).dropLast with
  | true => rfl
  | false =>
    dsimp only
    rw [hask]

theorem relocate_certs (fs : FS) (t : Task) (h : AddReady fs t) :
    PrefixesDir (relocateSub (sC t) (dC t) fs) (sC t) ∧
    lookupFS (relocateSub (sC t) (dC t) fs) (sC t) = none := by
  constructor
  · intro j hj0 hjlt
    rw [lookup_relocateSub _ _ _ _ h.dstFree]
    have hA : compsLe (dC t) ((sC t).take j) = false := by
      cases hx : compsLe (dC t) ((sC t).take j) with
      | false => rfl
      | true =>
        have h2 := compsLe_trans _ _ _ hx (compsLe_take (sC t) j)
        have h3 := h.sepDS
        rw [h2] at h3
        exact Bool.noConfusion h3
    have hB : compsLe (sC t) ((sC t).take j) = false := by
      cases hx : compsLe (sC t) ((sC t).take j) with
      | false => rfl
      | true =>
        have hlen := compsLe_length _ _ hx
        rw [List.length_take] at hlen
        omega
    rw [hA, hB]
    simp only [Bool.false_eq_true, if_false]
    exact h.srcDirs j hj0 hjlt
  · rw [lookup_relocateSub _ _ _ _ h.dstFree, h.sepDS]
    simp only [Bool.false_eq_true, if_false]
    rw [compsLe_refl, if_pos rfl]

theorem move_ok (fs : FS) (t : Task) (h : AddReady fs t) :
    shutil_move fs t.src t.dst = .ok (relocateSub (sC t) (dC t) fs) := by
  obtain ⟨h1, h2, h3, h4, h5⟩ := addReady_facts fs t h
  have hne : ¬ (splitPath t.src = splitPath t.dst) := by
    intro he
    have hx := h.sepSD
    rw [show splitPath t.src = sC t from rfl, show splitPath t.dst = dC t from rfl] at he
    rw [← he, compsLe_refl] at hx
    exact Bool.noConfusion hx
  have hsep' : compsLe (splitPath t.src) (splitPath t.dst) = false := h.sepSD
  have h3' : lookupFS fs (splitPath t.dst) = none := h3
  obtain ⟨n, hn⟩ : ∃ n, lookupFS fs (splitPath t.src) = some n := by
    rcases typeOk_cases h.srcType with ⟨_, hd⟩ | ⟨_, ct, hf⟩
    · exact ⟨_, hd⟩
    · exact ⟨_, hf⟩
  unfold shutil_move
  rw [h5]
  simp only [Bool.false_eq_true, if_false]
  unfold os_rename
  rw [lresolveKey_pre fs t.src h.srcCanon h.srcDirs,
      lresolveKey_pre fs t.dst h.dstCanon h.dstDirs]
  dsimp only
  rw [hn]
  dsimp only
  rw [if_neg hne, hsep']
  simp only [Bool.false_eq_true, if_false]
  rw [h3']
  rfl

theorem symlink_ok (fs : FS) (t : Task) (h : AddReady fs t) :
    os_symlink (relocateSub (sC t) (dC t) fs) t.dst t.src = .ok (addExplicit t fs) := by
  obtain ⟨hpre2, hnone2⟩ := relocate_certs fs t h
  have hnone2' : lookupFS (relocateSub (sC t) (dC t) fs) (splitPath t.src) = none := hnone2
  unfold os_symlink
  rw [lresolveKey_pre _ t.src h.srcCanon hpre2]
  dsimp only
  rw [hnone2']
  rfl

theorem addStep_run (env : Env) (fs : FS) (log : List Report) (t : Task)
    (h : AddReady fs t) (hask : ∀ a b, env.ask a b = true) :
    addStep env ⟨fs, log⟩ t =
      .ok ⟨addExplicit t fs, log ++ [.linkCreated t.src t.dst]⟩ := by
  obtain ⟨h1, h2, h3, h4, h5⟩ := addReady_facts fs t h
  unfold addStep
  dsimp only
  rw [h1]
  simp only [Bool.false_eq_true, if_false]
  rw [h2]
  simp only [if_pos]
  rw [h4]
  simp only [Bool.false_eq_true, if_false]
  rw [confirm_ok env fs t h hask]
  dsimp only
  rw [move_ok fs t h]
  dsimp only
  rw [symlink_ok fs t h]
  rfl

theorem runTasks_nil (step : Sys → Task → Except (PyErr × Sys) Sys) (s : Sys) :
    runTasks step s [] = .ok s := rfl

theorem runTasks_cons (step : Sys → Task → Except (PyErr × Sys) Sys) (s : Sys)
    (t : Task) (ts : List Task) :
    runTasks step s (t :: ts) =
      (match step s t with
       | .error e => .error e
       | .ok s2 => runTasks step s2 ts) := rfl

theorem dstFree_addExplicit (fs : FS) (t u : Task)
    (hu : ∀ kv ∈ fs, compsLe (dC u) kv.1 = false)
    (hus : compsLe (dC u) (sC t) = false)
    (hud : compsLe (dC u) (dC t) = false)
    (hdu : compsLe (dC t) (dC u) = false) :
    ∀ kv ∈ addExplicit t fs, compsLe (dC u) kv.1 = false := by
  intro kv hkv
  unfold addExplicit insertKV at hkv
  rcases List.mem_cons.mp hkv with rfl | hkv2
  · exact hus
  · have hkv3 := mem_eraseKey_sub _ _ _ hkv2
    obtain ⟨kv0, hkv0, hform⟩ := mem_relocate _ _ _ _ hkv3
    by_cases hm : compsLe (sC t) kv0.1 = true
    · rw [if_pos hm] at hform
      rw [hform]
      dsimp only
      exact pre_false_of_sep (compsLe_append (dC t) _) hud hdu
    · rw [if_neg hm] at hform
      rw [hform]
      exact hu kv0 hkv0

theorem addReady_preserved (fs : FS) (t u : Task) (ht : AddReady fs t) (hu : AddReady fs u)
    (hsep : nestSepB u t = true) : AddReady (addExplicit t fs) u := by
  obtain ⟨n1, n2, n3, n4, n5, n6, n7⟩ := nestSepB_spec hsep
  have huS : compsLe (sC u) (sC u) = true := compsLe_refl _
  have huD : compsLe (dC u) (dC u) = true := compsLe_refl _
  have keep : ∀ k, compsLe k (sC u) = true ∨ compsLe k (dC u) = true →
      lookupFS (addExplicit t fs) k = lookupFS fs k := by
    intro k hk
    rw [lookup_addExplicit t fs k ht.dstFree]
    have hkS : ¬ (k = sC t) := by
      intro he
      subst he
      rcases hk with hk | hk
      · rw [n1] at hk
        exact Bool.noConfusion hk
      · rw [n5] at hk
        exact Bool.noConfusion hk
    have hkD : compsLe (dC t) k = false := by
      cases hx : compsLe (dC t) k with
      | false => rfl
      | true =>
        exfalso
        rcases hk with hk | hk
        · have h2 := compsLe_trans _ _ _ hx hk
          rw [n6] at h2
          exact Bool.noConfusion h2
        · have h2 := compsLe_trans _ _ _ hx hk
          rw [n3] at h2
          exact Bool.noConfusion h2
    have hkT : compsLe (sC t) k = false := by
      cases hx : compsLe (sC t) k with
      | false => rfl
      | true =>
        exfalso
        rcases hk with hk | hk
        · have h2 := compsLe_trans _ _ _ hx hk
          rw [n1] at h2
          exact Bool.noConfusion h2
        · have h2 := compsLe_trans _ _ _ hx hk
          rw [n5] at h2
          exact Bool.noConfusion h2
    rw [if_neg hkS, hkD, hkT]
    simp only [Bool.false_eq_true, if_false]
  refine ⟨hu.srcCanon, hu.dstCanon, ?_, ?_, ?_, ?_, hu.sepSD, hu.sepDS, hu.dstDeep⟩
  · intro j hj0 hjlt
    rw [keep _ (Or.inl (compsLe_take (sC u) j))]
    exact hu.srcDirs j hj0 hjlt
  · intro j hj0 hjlt
    rw [keep _ (Or.inr (compsLe_take (dC u) j))]
    exact hu.dstDirs j hj0 hjlt
  · rw [keep _ (Or.inl huS)]
    exact hu.srcType
  · exact dstFree_addExplicit fs t u hu.dstFree n4 n2 n3

theorem runAdd (env : Env) (hask : ∀ a b, env.ask a b = true) :
    ∀ (ts : List Task) (fs : FS) (log : List Report),
      (∀ t ∈ ts, AddReady fs t) →
      List.Pairwise (fun t u => nestSepB u t = true) ts →
      runTasks (addStep env) ⟨fs, log⟩ ts =
        .ok ⟨addAllExplicit ts fs,
             log ++ ts.map (fun t => Report.linkCreated t.src t.dst)⟩ := by
  intro ts
  induction ts with
  | nil =>
    intro fs log _ _
    rw [runTasks_nil]
    simp [addAllExplicit]
  | cons t rest ih =>
    intro fs log hall hpw
    have hpwc := List.pairwise_cons.mp hpw
    rw [runTasks_cons, addStep_run env fs log t (hall t (List.mem_cons_self _ _)) hask]
    dsimp only
    rw [ih (addExplicit t fs) (log ++ [Report.linkCreated t.src t.dst])
      (fun u hu => addReady_preserved fs t u (hall t (List.mem_cons_self _ _))
        (hall u (List.mem_cons_of_mem _ hu)) (hpwc.1 u hu)) hpwc.2]
    simp [addAllExplicit]

theorem mem_eraseKey_ne (k : Comps) : ∀ (fs : FS) (kv : Comps × Node),
    kv ∈ eraseKey k fs → ¬ kv.1 = k := by
  intro fs
  induction fs with
  | nil => intro kv h; simp [eraseKey] at h
  | cons e rest ih =>
    intro kv h
    obtain ⟨k0, v0⟩ := e
    rw [eraseKey] at h
    by_cases h0 : k0 = k
    · rw [if_pos h0] at h
      exact ih kv h
    · rw [if_neg h0] at h
      rcases List.mem_cons.mp h with rfl | h2
      · exact h0
      · exact ih kv h2

theorem dirname_canon (b : Str) (hc : canonB b = true) (hdeep : 2 ≤ (splitPath b).length) :
    dirnameStr b = joinC (splitPath b).dropLast := by
  have hsplit := canonB_split_join b hc
  have hgood := splitPath_good b
  obtain ⟨c, hcl⟩ : ∃ c, (splitPath b).getLast? = some c := by
    cases hgl : (splitPath b).getLast? with
    | none => exact absurd (List.getLast?_eq_none_iff.mp hgl) hsplit.2
    | some c => exact ⟨c, rfl⟩
  have hdecomp : splitPath b = (splitPath b).dropLast ++ [c] := getLast?_decomp _ _ hcl
  have hlendl : (splitPath b).dropLast.length = (splitPath b).length - 1 := List.length_dropLast _
  have hcsne : (splitPath b).dropLast ≠ [] := by
    intro he
    rw [he] at hlendl
    simp at hlendl
    omega
  have hgood2 : ∀ c' ∈ (splitPath b).dropLast ++ [c], c' ≠ [] ∧ ∀ x ∈ c', ¬ x = '/' := by
    intro c' hc'
    exact hgood c' (by rw [hdecomp]; exact hc')
  have hb_eq : b = joinC ((splitPath b).dropLast ++ [c]) := by
    conv_rhs => rw [← hdecomp]
    exact hsplit.1
  conv_lhs => rw [hb_eq]
  rw [dirnameStr_joinC _ c hgood2, if_neg hcsne]

theorem stat_dev_dirname (env : Env) (fs : FS) (b : Str) (hc : canonB b = true)
    (hdeep : 2 ≤ (splitPath b).length)
    (hdir : lookupFS fs (splitPath b).dropLast = some Node.dir)
    (hpre : PrefixesDir fs (splitPath b).dropLast) :
    stat_dev env fs (dirnameStr b) = .ok (env.dev (splitPath b).dropLast) := by
  have hgood := splitPath_good b
  have hgoodcs : ∀ c' ∈ (splitPath b).dropLast, c' ≠ [] ∧ ∀ x ∈ c', ¬ x = '/' :=
    fun c' hc' => hgood c' (List.dropLast_subset _ hc')
  have hlendl : (splitPath b).dropLast.length = (splitPath b).length - 1 := List.length_dropLast _
  have hcsne : (splitPath b).dropLast ≠ [] := by
    intro he
    rw [he] at hlendl
    simp at hlendl
    omega
  have hcanonP : canonB (joinC (splitPath b).dropLast) = true := canonB_joinC _ hcsne hgoodcs
  have hsplitP : splitPath (joinC (splitPath b).dropLast) = (splitPath b).dropLast :=
    splitPath_joinC _ hgoodcs
  rw [dirname_canon b hc hdeep]
  have hx := stat_dev_of_dir env fs (joinC (splitPath b).dropLast) hcanonP
    (by rw [hsplitP]; exact hpre) (by rw [hsplitP]; exact hdir)
  rw [hsplitP] at hx
  exact hx

theorem confirm_move_ok (env : Env) (fs : FS) (a b : Str)
    (ha : ∃ d, stat_dev env fs a = .ok d)
    (hc : canonB b = true) (hdeep : 2 ≤ (splitPath b).length)
    (hdir : lookupFS fs (splitPath b).dropLast = some Node.dir)
    (hpre : PrefixesDir fs (splitPath b).dropLast)
    (hask : ∀ x y, env.ask x y = true) :
    confirm_move env fs a b = .ok true := by
  obtain ⟨d1, hs1⟩ := ha
  have hs2 := stat_dev_dirname env fs b hc hdeep hdir hpre
  unfold confirm_move is_same_device
  rw [hs1, hs2]
  dsimp only
  cases hb : d1 == env.dev (splitPath b).dropLast with
  | true => rfl
  | false =>
    dsimp only
    rw [hask]

theorem remStep_run (env : Env) (fs : FS) (log : List Report) (t : Task)
    (h : RemReady fs t) (hask : ∀ a b, env.ask a b = true) :
    remStep env ⟨fs, log⟩ t =
      .ok ⟨remExplicit t fs, log ++ [.linkRemoved t.src t.dst]⟩ := by
  have hsrc_eq : splitPath t.src = sC t := rfl
  have hdst_eq : splitPath t.dst = dC t := rfl
  have hlink : islinkPath fs t.src = true :=
    islink_pre_sym fs t.src t.dst h.srcCanon h.srcDirs h.srcLink
  have hread : readlinkPath fs t.src = some t.dst :=
    readlink_pre_sym fs t.src t.dst h.srcCanon h.srcDirs h.srcLink
  have hneDS : ¬ ((dC t) = sC t) := by
    intro he
    have hx := h.sepDS
    rw [he, compsLe_refl] at hx
    exact Bool.noConfusion hx
  have hlkE : ∀ k, lookupFS (eraseKey (sC t) fs) k =
      if k = sC t then none else lookupFS fs k := fun k => lookup_eraseKey (sC t) fs k
  have hdstDirs1 : PrefixesDir (eraseKey (sC t) fs) (dC t) := by
    intro j hj0 hjlt
    rw [hlkE]
    have hne : ¬ ((dC t).take j = sC t) := by
      intro he
      have hx := compsLe_take (dC t) j
      rw [he] at hx
      have hy := h.sepSD
      rw [hx] at hy
      exact Bool.noConfusion hy
    rw [if_neg hne]
    exact h.dstDirs j hj0 hjlt
  have hsrcDirs1 : PrefixesDir (eraseKey (sC t) fs) (sC t) := by
    intro j hj0 hjlt
    rw [hlkE]
    have hne : ¬ ((sC t).take j = sC t) := by
      intro he
      have hx := congrArg List.length he
      rw [List.length_take] at hx
      omega
    rw [if_neg hne]
    exact h.srcDirs j hj0 hjlt
  have hdstLk1 : lookupFS (eraseKey (sC t) fs) (dC t) = lookupFS fs (dC t) := by
    rw [hlkE, if_neg hneDS]
  have hdstE : pathExists (eraseKey (sC t) fs) t.dst = true := by
    rcases typeOk_cases h.dstType with ⟨_, hd⟩ | ⟨_, ct, hf⟩
    · exact pathExists_of_dir _ t.dst h.dstCanon hdstDirs1
        (by rw [hdst_eq, hdstLk1]; exact hd)
    · exact pathExists_of_file _ t.dst ct h.dstCanon hdstDirs1
        (by rw [hdst_eq, hdstLk1]; exact hf)
  have hstatD : ∃ d, stat_dev env (eraseKey (sC t) fs) t.dst = .ok d := by
    rcases typeOk_cases h.dstType with ⟨_, hd⟩ | ⟨_, ct, hf⟩
    · exact ⟨_, stat_dev_of_dir env _ t.dst h.dstCanon hdstDirs1
        (by rw [hdst_eq, hdstLk1]; exact hd)⟩
    · exact ⟨_, stat_dev_of_file env _ t.dst ct h.dstCanon hdstDirs1
        (by rw [hdst_eq, hdstLk1]; exact hf)⟩
  have hdeepS := h.srcDeep
  have hparentDir1 : lookupFS (eraseKey (sC t) fs) (splitPath t.src).dropLast
      = some Node.dir := by
    rw [hsrc_eq, hlkE]
    have hne : ¬ ((sC t).dropLast = sC t) := by
      intro he
      have hx := congrArg List.length he
      rw [List.length_dropLast] at hx
      omega
    rw [if_neg hne, List.dropLast_eq_take]
    exact h.srcDirs _ (by omega) (by omega)
  have hparentPre1 : PrefixesDir (eraseKey (sC t) fs) (splitPath t.src).dropLast := by
    rw [hsrc_eq]
    intro j hj0 hjlt
    rw [List.length_dropLast] at hjlt
    rw [take_dropLast _ j (by omega)]
    exact hsrcDirs1 j hj0 (by omega)
  have hconf : confirm_move env (eraseKey (sC t) fs) t.dst t.src = .ok true :=
    confirm_move_ok env _ t.dst t.src hstatD h.srcCanon h.srcDeep hparentDir1 hparentPre1 hask
  have hmk : os_makedirs (eraseKey (sC t) fs) (dirnameStr t.src) = .ok (eraseKey (sC t) fs) := by
    rw [dirname_canon t.src h.srcCanon h.srcDeep]
    have hgood := splitPath_good t.src
    have hgoodcs : ∀ c' ∈ (splitPath t.src).dropLast, c' ≠ [] ∧ ∀ x ∈ c', ¬ x = '/' :=
      fun c' hc' => hgood c' (List.dropLast_subset _ hc')
    unfold os_makedirs
    rw [splitPath_joinC _ hgoodcs]
    refine mkGo_noop _ _ [] ?_
    intro j hj0 hjle
    rw [List.nil_append]
    have hjle2 : j ≤ (sC t).dropLast.length := hjle
    rw [List.length_dropLast] at hjle2
    have hgoal : lookupFS (eraseKey (sC t) fs) ((sC t).dropLast.take j) = some Node.dir := by
      rw [take_dropLast _ j (by omega)]
      exact hsrcDirs1 j hj0 (by omega)
    exact hgoal
  obtain ⟨nd, hnd⟩ : ∃ n, lookupFS fs (dC t) = some n := by
    rcases typeOk_cases h.dstType with ⟨_, hd⟩ | ⟨_, ct, hf⟩
    · exact ⟨_, hd⟩
    · exact ⟨_, hf⟩
  have hisD1src : isDirPath (eraseKey (sC t) fs) t.src = false :=
    isDirPath_of_none _ t.src h.srcCanon hsrcDirs1 (by rw [hsrc_eq, hlkE, if_pos rfl])
  have hmove : shutil_move (eraseKey (sC t) fs) t.dst t.src = .ok (remExplicit t fs) := by
    unfold shutil_move
    rw [hisD1src]
    simp only [Bool.false_eq_true, if_false]
    unfold os_rename
    rw [show lresolveKey (eraseKey (sC t) fs) t.dst = some (dC t) from
          lresolveKey_pre _ t.dst h.dstCanon hdstDirs1,
        show lresolveKey (eraseKey (sC t) fs) t.src = some (sC t) from
          lresolveKey_pre _ t.src h.srcCanon hsrcDirs1]
    dsimp only
    rw [show lookupFS (eraseKey (sC t) fs) (dC t) = some nd from by rw [hdstLk1]; exact hnd]
    dsimp only
    rw [if_neg hneDS, h.sepDS]
    simp only [Bool.false_eq_true, if_false]
    rw [show lookupFS (eraseKey (sC t) fs) (sC t) = none from by rw [hlkE, if_pos rfl]]
    rfl
  have hfree1 : ∀ kv ∈ eraseKey (sC t) fs, compsLe (sC t) kv.1 = false := by
    intro kv hkv
    cases hx : compsLe (sC t) kv.1 with
    | false => rfl
    | true =>
      exfalso
      have hne := mem_eraseKey_ne (sC t) fs kv hkv
      have hnone := h.srcOnly kv.1 hx hne
      have hmem := mem_eraseKey_sub (sC t) fs kv hkv
      exact entry_lookup fs kv hmem hnone
  have hclean3 : lookupFS (remExplicit t fs) (dC t) = none := by
    unfold remExplicit
    rw [lookup_relocateSub _ _ _ _ hfree1, h.sepSD]
    simp only [Bool.false_eq_true, if_false]
    rw [compsLe_refl, if_pos rfl]
  have hcleanDirs : PrefixesDir (remExplicit t fs) (dC t) := by
    intro j hj0 hjlt
    unfold remExplicit
    rw [lookup_relocateSub _ _ _ _ hfree1]
    have hA : compsLe (sC t) ((dC t).take j) = false := by
      cases hx : compsLe (sC t) ((dC t).take j) with
      | false => rfl
      | true =>
        have h2 := compsLe_trans _ _ _ hx (compsLe_take (dC t) j)
        have h3 := h.sepSD
        rw [h2] at h3
        exact Bool.noConfusion h3
    have hB : compsLe (dC t) ((dC t).take j) = false := by
      cases hx : compsLe (dC t) ((dC t).take j) with
      | false => rfl
      | true =>
        have hlen := compsLe_length _ _ hx
        rw [List.length_take] at hlen
        omega
    rw [hA, hB]
    simp only [Bool.false_eq_true, if_false]
    exact hdstDirs1 j hj0 hjlt
  have hcleanD : isDirPath (remExplicit t fs) t.dst = false :=
    isDirPath_of_none _ t.dst h.dstCanon hcleanDirs (by rw [hdst_eq]; exact hclean3)
  have hclean : ∀ lg, removeCleanup ⟨remExplicit t fs, lg⟩ t = .ok ⟨remExplicit t fs, lg⟩ := by
    intro lg
    unfold removeCleanup
    dsimp only
    rw [hcleanD]
    rfl
  unfold remStep
  dsimp only
  rw [hlink, hread]
  simp only [Bool.true_and, beq_self_eq_true, if_pos]
  unfold os_remove
  rw [show lresolveKey fs t.src = some (sC t) from
        lresolveKey_pre fs t.src h.srcCanon h.srcDirs]
  dsimp only
  rw [show lookupFS fs (sC t) = some (Node.symlink t.dst) from h.srcLink]
  dsimp only
  rw [hdstE]
  simp only [if_pos]
  rw [hconf]
  dsimp only
  rw [hmk]
  dsimp only
  rw [hmove]
  dsimp only
  rw [hclean]
  rfl


theorem lookAddR_passthrough (fs0 : FS) : ∀ (rs : List Task) (k : Comps),
    (∀ t ∈ rs, compsLe (sC t) k = false ∧ compsLe (dC t) k = false) →
    lookAddR fs0 rs k = lookupFS fs0 k := by
  intro rs
  induction rs with
  | nil => intro k _; rfl
  | cons t rest ih =>
    intro k hc
    have ht := hc t (List.mem_cons_self _ _)
    rw [lookAddR_cons]
    have hne : ¬ k = sC t := by
      intro he
      have hx := ht.1
      rw [he, compsLe_refl] at hx
      exact Bool.noConfusion hx
    rw [if_neg hne, ht.2, ht.1]
    simp only [Bool.false_eq_true, if_false]
    exact ih k (fun v hv => hc v (List.mem_cons_of_mem _ hv))

theorem sepRest_above (u : Task) (rest : List Task)
    (hsep : ∀ t ∈ rest, nestSepB u t = true) :
    ∀ t' ∈ rest, ∀ k, compsLe k (sC u) = true ∨ compsLe k (dC u) = true →
      compsLe (sC t') k = false ∧ compsLe (dC t') k = false := by
  intro t' ht' k hk
  obtain ⟨n1, n2, n3, n4, n5, n6, n7⟩ := nestSepB_spec (hsep t' ht')
  constructor
  · cases hx : compsLe (sC t') k with
    | false => rfl
    | true =>
      exfalso
      rcases hk with hk | hk
      · have h2 := compsLe_trans _ _ _ hx hk
        rw [n1] at h2
        exact Bool.noConfusion h2
      · have h2 := compsLe_trans _ _ _ hx hk
        rw [n5] at h2
        exact Bool.noConfusion h2
  · cases hx : compsLe (dC t') k with
    | false => rfl
    | true =>
      exfalso
      rcases hk with hk | hk
      · have h2 := compsLe_trans _ _ _ hx hk
        rw [n6] at h2
        exact Bool.noConfusion h2
      · have h2 := compsLe_trans _ _ _ hx hk
        rw [n3] at h2
        exact Bool.noConfusion h2

theorem sepRest_below (u : Task) (rest : List Task)
    (hsep : ∀ t ∈ rest, nestSepB u t = true) :
    ∀ t' ∈ rest, ∀ k, compsLe (dC u) k = true →
      compsLe (sC t') k = false ∧ compsLe (dC t') k = false := by
  intro t' ht' k hk
  obtain ⟨n1, n2, n3, n4, n5, n6, n7⟩ := nestSepB_spec (hsep t' ht')
  exact ⟨pre_false_of_sep hk n5 n4, pre_false_of_sep hk n3 n2⟩

theorem eraseKey_free (b : Comps) (S : FS)
    (hso : ∀ k, compsLe b k = true → ¬ k = b → lookupFS S k = none) :
    ∀ kv ∈ eraseKey b S, compsLe b kv.1 = false := by
  intro kv hkv
  cases hx : compsLe b kv.1 with
  | false => rfl
  | true =>
    exfalso
    exact entry_lookup S kv (mem_eraseKey_sub b S kv hkv)
      (hso kv.1 hx (mem_eraseKey_ne b S kv hkv))

theorem remReady_head (fs0 S : FS) (u : Task) (rest : List Task)
    (hu : AddReady fs0 u) (hdeep : 2 ≤ (sC u).length)
    (hsep : ∀ t ∈ rest, nestSepB u t = true)
    (hinv : ∀ k, lookupFS S k = lookAddR fs0 (u :: rest) k) :
    RemReady S u := by
  have hneDS : ¬ (dC u) = sC u := by
    intro he
    have hx := hu.sepDS
    rw [he, compsLe_refl] at hx
    exact Bool.noConfusion hx
  refine ⟨hu.srcCanon, hu.dstCanon, ?_, ?_, ?_, ?_, ?_, hu.sepSD, hu.sepDS, hdeep, hu.dstDeep⟩
  · intro j hj0 hjlt
    rw [hinv, lookAddR_cons]
    have hpu : compsLe ((sC u).take j) (sC u) = true := compsLe_take _ _
    have hne : ¬ (sC u).take j = sC u := by
      intro he
      have hx := congrArg List.length he
      rw [List.length_take] at hx
      omega
    have hd : compsLe (dC u) ((sC u).take j) = false := by
      cases hx : compsLe (dC u) ((sC u).take j) with
      | false => rfl
      | true =>
        have h2 := compsLe_trans _ _ _ hx hpu
        have h3 := hu.sepDS
        rw [h2] at h3
        exact Bool.noConfusion h3
    have hs : compsLe (sC u) ((sC u).take j) = false := by
      cases hx : compsLe (sC u) ((sC u).take j) with
      | false => rfl
      | true =>
        have hlen := compsLe_length _ _ hx
        rw [List.length_take] at hlen
        omega
    rw [if_neg hne, hd, hs]
    simp only [Bool.false_eq_true, if_false]
    rw [lookAddR_passthrough fs0 rest _
      (fun t' ht' => sepRest_above u rest hsep t' ht' _ (Or.inl hpu))]
    exact hu.srcDirs j hj0 hjlt
  · intro j hj0 hjlt
    rw [hinv, lookAddR_cons]
    have hpu : compsLe ((dC u).take j) (dC u) = true := compsLe_take _ _
    have hne : ¬ (dC u).take j = sC u := by
      intro he
      have hx := hpu
      rw [he] at hx
      have hy := hu.sepSD
      rw [hx] at hy
      exact Bool.noConfusion hy
    have hd : compsLe (dC u) ((dC u).take j) = false := by
      cases hx : compsLe (dC u) ((dC u).take j) with
      | false => rfl
      | true =>
        have hlen := compsLe_length _ _ hx
        rw [List.length_take] at hlen
        omega
    have hs : compsLe (sC u) ((dC u).take j) = false := by
      cases hx : compsLe (sC u) ((dC u).take j) with
      | false => rfl
      | true =>
        have h2 := compsLe_trans _ _ _ hx hpu
        have h3 := hu.sepSD
        rw [h2] at h3
        exact Bool.noConfusion h3
    rw [if_neg hne, hd, hs]
    simp only [Bool.false_eq_true, if_false]
    rw [lookAddR_passthrough fs0 rest _
      (fun t' ht' => sepRest_above u rest hsep t' ht' _ (Or.inr hpu))]
    exact hu.dstDirs j hj0 hjlt
  · rw [hinv, lookAddR_cons, if_pos rfl]
  · have hkey : lookupFS S (dC u) = lookupFS fs0 (sC u) := by
      rw [hinv, lookAddR_cons, if_neg hneDS, compsLe_refl, if_pos rfl, List.drop_length,
        List.append_nil]
      exact lookAddR_passthrough fs0 rest _
        (fun t' ht' => sepRest_above u rest hsep t' ht' _ (Or.inl (compsLe_refl _)))
    rw [hkey]
    exact hu.srcType
  · intro k hk hne
    rw [hinv, lookAddR_cons, if_neg hne]
    have hd : compsLe (dC u) k = false := pre_false_of_sep hk hu.sepDS hu.sepSD
    rw [hd]
    simp only [Bool.false_eq_true, if_false]
    rw [hk, if_pos rfl]

theorem rem_inv_step (fs0 S : FS) (u : Task) (rest : List Task)
    (hu : AddReady fs0 u)
    (hsep : ∀ t ∈ rest, nestSepB u t = true)
    (hinv : ∀ k, lookupFS S k = lookAddR fs0 (u :: rest) k)
    (hso : ∀ k, compsLe (sC u) k = true → ¬ k = sC u → lookupFS S k = none) :
    ∀ k, lookupFS (remExplicit u S) k = lookAddR fs0 rest k := by
  have hfree1 := eraseKey_free (sC u) S hso
  have hlkE : ∀ x, lookupFS (eraseKey (sC u) S) x =
      if x = sC u then none else lookupFS S x := fun x => lookup_eraseKey _ _ _
  intro k
  unfold remExplicit
  rw [lookup_relocateSub _ _ _ _ hfree1]
  cases hA : compsLe (sC u) k with
  | true =>
    rw [if_pos rfl]
    have hKne : ¬ (dC u ++ k.drop (sC u).length) = sC u := by
      intro he
      have hx : compsLe (dC u) (sC u) = true := by
        rw [← he]
        exact compsLe_append _ _
      rw [hu.sepDS] at hx
      exact Bool.noConfusion hx
    rw [hlkE, if_neg hKne, hinv, lookAddR_cons, if_neg hKne,
      show compsLe (dC u) (dC u ++ k.drop (sC u).length) = true from compsLe_append _ _,
      if_pos rfl, List.drop_left]
    congr 1
    exact (compsLe_decomp _ _ hA).symm
  | false =>
    cases hB : compsLe (dC u) k with
    | true =>
      simp only [Bool.false_eq_true, if_false]
      rw [if_pos trivial]
      rw [lookAddR_passthrough fs0 rest k
        (fun t' ht' => sepRest_below u rest hsep t' ht' k hB)]
      exact (lookup_none_of_free (dC u) fs0 hu.dstFree k hB).symm
    | false =>
      simp only [Bool.false_eq_true, if_false]
      have hne : ¬ k = sC u := by
        intro he
        rw [he, compsLe_refl] at hA
        exact Bool.noConfusion hA
      rw [hlkE, if_neg hne, hinv, lookAddR_cons, if_neg hne, hB, hA]
      simp only [Bool.false_eq_true, if_false]

theorem runRem (env : Env) (fs0 : FS) (hask : ∀ a b, env.ask a b = true) :
    ∀ (rs : List Task) (S : FS) (log : List Report),
      (∀ u ∈ rs, AddReady fs0 u ∧ 2 ≤ (sC u).length) →
      List.Pairwise (fun t u => nestSepB t u = true) rs →
      (∀ k, lookupFS S k = lookAddR fs0 rs k) →
      ∃ Sf, runTasks (remStep env) ⟨S, log⟩ rs =
          .ok ⟨Sf, log ++ rs.map (fun t => Report.linkRemoved t.src t.dst)⟩ ∧
        ∀ k, lookupFS Sf k = lookupFS fs0 k := by
  intro rs
  induction rs with
  | nil =>
    intro S log _ _ hinv
    refine ⟨S, ?_, fun k => hinv k⟩
    rw [runTasks_nil]
    simp
  | cons u rest ih =>
    intro S log hall hpw hinv
    have hpwc := List.pairwise_cons.mp hpw
    have hu := hall u (List.mem_cons_self _ _)
    have hrr : RemReady S u := remReady_head fs0 S u rest hu.1 hu.2 hpwc.1 hinv
    have hstep := remStep_run env S log u hrr hask
    have hinv2 := rem_inv_step fs0 S u rest hu.1 hpwc.1 hinv hrr.srcOnly
    obtain ⟨Sf, hrun, hfin⟩ := ih (remExplicit u S) (log ++ [Report.linkRemoved u.src u.dst])
      (fun v hv => hall v (List.mem_cons_of_mem _ hv)) hpwc.2 hinv2
    refine ⟨Sf, ?_, hfin⟩
    rw [runTasks_cons, hstep]
    dsimp only
    rw [hrun]
    simp

theorem lookAddR_perm (fs0 : FS) : ∀ (A B : List Task), A.Perm B →
    (∀ t ∈ A, ∀ u ∈ A, ¬ t = u → sepB t u = true) →
    ∀ k, lookAddR fs0 A k = lookAddR fs0 B k := by
  intro A B hperm
  induction hperm with
  | nil => intro _ k; rfl
  | cons x h ih =>
    intro hc k
    exact lookAddR_congr_tail fs0 x _ _
      (fun k0 => ih (fun t ht u hu hne =>
        hc t (List.mem_cons_of_mem _ ht) u (List.mem_cons_of_mem _ hu) hne) k0) k
  | swap x y l =>
    intro hc k
    by_cases hxy : x = y
    · subst hxy; rfl
    · obtain ⟨s1, s2, s3, s4, s5, s6, s7, s8⟩ := sepB_spec (hc x (by simp) y (by simp) hxy)
      exact lookAddR_swap fs0 y x s1 s2 s3 s4 s5 s6 s7 s8 l k
  | trans h1 h2 ih1 ih2 =>
    intro hc k
    rw [ih1 hc k]
    refine ih2 (fun t ht u hu hne => hc t ?_ u ?_ hne) k
    · exact h1.mem_iff.mpr ht
    · exact h1.mem_iff.mpr hu


theorem addReadyB_spec (fs : FS) (t : Task) (h : addReadyB fs t = true) :
    AddReady fs t ∧ 2 ≤ (sC t).length := by
  unfold addReadyB at h
  simp only [Bool.and_eq_true, Bool.not_eq_true', List.all_eq_true,
    decide_eq_true_eq] at h
  obtain ⟨⟨⟨⟨⟨⟨⟨⟨⟨h1, h2⟩, h3⟩, h4⟩, h5⟩, h6⟩, h7⟩, h8⟩, h9⟩, h10⟩ := h
  exact ⟨⟨h1, h2, (prefDirB_iff _ _).mp h3, (prefDirB_iff _ _).mp h4, h5,
    fun kv hkv => h6 kv hkv, h7, h8, h9⟩, h10⟩

theorem sepB_of {t u : Task}
    (s1 : compsLe (sC u) (sC t) = false) (s2 : compsLe (sC t) (sC u) = false)
    (s3 : compsLe (dC u) (dC t) = false) (s4 : compsLe (dC t) (dC u) = false)
    (s5 : compsLe (dC u) (sC t) = false) (s6 : compsLe (sC t) (dC u) = false)
    (s7 : compsLe (dC t) (sC u) = false) (s8 : compsLe (sC u) (dC t) = false) :
    sepB t u = true := by
  unfold sepB
  rw [s1, s2, s3, s4, s5, s6, s7, s8]
  rfl

theorem sepB_comm {t u : Task} (h : sepB t u = true) : sepB u t = true := by
  obtain ⟨s1, s2, s3, s4, s5, s6, s7, s8⟩ := sepB_spec h
  exact sepB_of s2 s1 s4 s3 s7 s8 s5 s6

theorem sepB_symmRel : Symmetric (fun t u : Task => sepB t u = true) :=
  fun _ _ h => sepB_comm h

theorem pairSepB_pairwise : ∀ (l : List Task), pairSepB l = true →
    List.Pairwise (fun t u => sepB t u = true) l := by
  intro l
  induction l with
  | nil => intro _; exact List.Pairwise.nil
  | cons t rest ih =>
    intro h
    unfold pairSepB at h
    rw [Bool.and_eq_true, List.all_eq_true] at h
    exact List.Pairwise.cons (fun u hu => h.1 u hu) (ih h.2)

theorem pairwise_sep_forall : ∀ {l : List Task},
    List.Pairwise (fun t u => sepB t u = true) l →
    ∀ t ∈ l, ∀ u ∈ l, ¬ t = u → sepB t u = true := by
  intro l
  induction l with
  | nil => intro _ t ht; simp at ht
  | cons x rest ih =>
    intro h t ht u hu hne
    have hpc := List.pairwise_cons.mp h
    rcases List.mem_cons.mp ht with rfl | ht2
    · rcases List.mem_cons.mp hu with rfl | hu2
      · exact absurd rfl hne
      · exact hpc.1 u hu2
    · rcases List.mem_cons.mp hu with rfl | hu2
      · exact sepB_comm (hpc.1 t ht2)
      · exact ih hpc.2 t ht2 u hu2 hne

theorem dstsNoSrc_of_ready {fs0 : FS} {ts : List Task}
    (hall : ∀ t ∈ ts, AddReady fs0 t)
    (hsep : ∀ t ∈ ts, ∀ u ∈ ts, ¬ t = u → sepB t u = true) :
    dstsNoSrc ts := by
  intro t ht u hu
  by_cases he : t = u
  · subst he
    exact (hall t ht).sepDS
  · exact (sepB_spec (hsep t ht u hu he)).2.2.2.2.2.2.1

theorem dstsPW_of_pairwise {ts : List Task}
    (hpw : List.Pairwise (fun t u => sepB t u = true) ts) : dstsPW ts := by
  refine hpw.imp ?_
  intro t u h
  obtain ⟨s1, s2, s3, s4, s5, s6, s7, s8⟩ := sepB_spec h
  exact ⟨s4, s3⟩

theorem sepB_to_nest {a b : Task} (h : sepB a b = true) : nestSepB a b = true := by
  obtain ⟨s1, s2, s3, s4, s5, s6, s7, s8⟩ := sepB_spec h
  exact nestSepB_of s1 s4 s3 s7 s8 s5 s6

theorem sepB_to_nest2 {a b : Task} (h : sepB a b = true) : nestSepB b a = true :=
  sepB_to_nest (sepB_comm h)

theorem pairNestB_pairwise : ∀ (l : List Task), pairNestB l = true →
    List.Pairwise (fun t u => nestSepB t u = true) l := by
  intro l
  induction l with
  | nil => intro _; exact List.Pairwise.nil
  | cons t rest ih =>
    intro h
    unfold pairNestB at h
    rw [Bool.and_eq_true, List.all_eq_true] at h
    exact List.Pairwise.cons (fun u hu => h.1 u hu) (ih h.2)

theorem joinC_length_lt (cs r : Comps) (hr : r ≠ []) :
    (joinC cs).length < (joinC (cs ++ r)).length := by
  rw [joinC_append, List.length_append]
  have hne := joinC_ne_nil r hr
  have hlen : 0 < (joinC r).length := List.length_pos.mpr hne
  omega

theorem tie_full_sep {a b : Task} (hca : canonB a.src = true) (hcb : canonB b.src = true)
    (hlen : lenSrc a = lenSrc b) (h : nestSepB a b = true) : sepB a b = true := by
  obtain ⟨n1, n2, n3, n4, n5, n6, n7⟩ := nestSepB_spec h
  have s2 : compsLe (sC a) (sC b) = false := by
    cases hx : compsLe (sC a) (sC b) with
    | false => rfl
    | true =>
      exfalso
      obtain ⟨r, hr⟩ := (compsLe_iff _ _).mp hx
      by_cases hrn : r = []
      · subst hrn
        rw [List.append_nil] at hr
        rw [hr, compsLe_refl] at n1
        exact Bool.noConfusion n1
      · have hlt := joinC_length_lt (sC a) r hrn
        rw [← hr] at hlt
        have he1 : a.src = joinC (sC a) := (canonB_split_join a.src hca).1
        have he2 : b.src = joinC (sC b) := (canonB_split_join b.src hcb).1
        have hfin : lenSrc a < lenSrc b := by
          unfold lenSrc
          rw [he1, he2]
          exact hlt
        omega
  exact sepB_of n1 s2 n3 n2 n6 n7 n4 n5

theorem pairwise_forall_or {R : Task → Task → Prop} : ∀ {l : List Task},
    List.Pairwise R l → ∀ t ∈ l, ∀ u ∈ l, ¬ t = u → R t u ∨ R u t := by
  intro l
  induction l with
  | nil => intro _ t ht; simp at ht
  | cons x rest ih =>
    intro h t ht u hu hne
    have hpc := List.pairwise_cons.mp h
    rcases List.mem_cons.mp ht with rfl | ht2
    · rcases List.mem_cons.mp hu with rfl | hu2
      · exact absurd rfl hne
      · exact Or.inl (hpc.1 u hu2)
    · rcases List.mem_cons.mp hu with rfl | hu2
      · exact Or.inr (hpc.1 t ht2)
      · exact ih hpc.2 t ht2 u hu2 hne

theorem sorted_asc_ssort (l : List Task) :
    (ssortBy ascBefore l).Pairwise (fun x y => lenSrc x ≤ lenSrc y) := by
  have h := pairwise_ssortBy ascBefore
    (fun x y h => by simp [ascBefore] at h ⊢; omega)
    (fun x y z h1 h2 => by simp [ascBefore] at h1 h2 ⊢; omega) l
  exact h.imp (fun {x y} h => by simp [ascBefore] at h; omega)

theorem sorted_desc_ssort (l : List Task) :
    (ssortBy descBefore l).Pairwise (fun x y => lenSrc y ≤ lenSrc x) := by
  have h := pairwise_ssortBy descBefore
    (fun x y h => by simp [descBefore] at h ⊢; omega)
    (fun x y z h1 h2 => by simp [descBefore] at h1 h2 ⊢; omega) l
  exact h.imp (fun {x y} h => by simp [descBefore] at h; omega)

theorem lookAddR_sorted_perm (fs0 : FS) : ∀ (A B : List Task), A.Perm B → A.Nodup →
    List.Pairwise (fun t u => lenSrc t ≤ lenSrc u) A →
    List.Pairwise (fun t u => lenSrc t ≤ lenSrc u) B →
    (∀ t ∈ A, ∀ u ∈ A, ¬ t = u → lenSrc t = lenSrc u → sepB t u = true) →
    ∀ k, lookAddR fs0 A k = lookAddR fs0 B k := by
  intro A
  induction A with
  | nil =>
    intro B hperm _ _ _ _ k
    have hB : B = [] := (List.Perm.nil_eq hperm).symm
    subst hB
    rfl
  | cons x A2 ih =>
    intro B hperm hnd hsA hsB htie k
    have hxB : x ∈ B := hperm.mem_iff.mp (List.mem_cons_self _ _)
    obtain ⟨B1, B2, rfl⟩ := List.append_of_mem hxB
    have hndc := List.nodup_cons.mp hnd
    have hpcA := List.pairwise_cons.mp hsA
    have hpermA2 : A2.Perm (B1 ++ B2) := (hperm.trans List.perm_middle).cons_inv
    have hndB := hperm.nodup_iff.mp hnd
    have hB1 : ∀ b1 ∈ B1, sepB x b1 = true := by
      intro b1 hb1
      have hb1ne : ¬ b1 = x := by
        intro he
        subst he
        have hsplit := List.nodup_append.mp hndB
        exact hsplit.2.2 hb1 (List.mem_cons_self _ _)
      have hb1A2 : b1 ∈ A2 := by
        have hmem : b1 ∈ x :: A2 := hperm.mem_iff.mpr (List.mem_append_left _ hb1)
        rcases List.mem_cons.mp hmem with he | h2
        · exact absurd he hb1ne
        · exact h2
      have hle1 : lenSrc x ≤ lenSrc b1 := hpcA.1 b1 hb1A2
      have hle2 : lenSrc b1 ≤ lenSrc x := by
        have hp := List.pairwise_append.mp hsB
        exact hp.2.2 b1 hb1 x (List.mem_cons_self _ _)
      exact htie x (List.mem_cons_self _ _) b1 (List.mem_cons_of_mem _ hb1A2)
        (fun he => hb1ne he.symm) (Nat.le_antisymm hle1 hle2)
    have hsB12 : List.Pairwise (fun t u => lenSrc t ≤ lenSrc u) (B1 ++ B2) := by
      refine List.Pairwise.sublist ?_ hsB
      exact List.Sublist.append_left (List.Sublist.cons x (List.Sublist.refl B2)) B1
    have htie2 : ∀ t ∈ A2, ∀ u ∈ A2, ¬ t = u → lenSrc t = lenSrc u → sepB t u = true :=
      fun t ht u hu hne hl =>
        htie t (List.mem_cons_of_mem _ ht) u (List.mem_cons_of_mem _ hu) hne hl
    rw [lookAddR_hoist fs0 x B1 hB1 B2 k]
    exact lookAddR_congr_tail fs0 x A2 (B1 ++ B2)
      (fun k0 => ih (B1 ++ B2) hpermA2 hndc.2 hpcA.2 hsB12 htie2 k0) k

theorem dstsNoSrc_of_nest {fs0 : FS} {ts : List Task}
    (hall : ∀ t ∈ ts, AddReady fs0 t)
    (hor : ∀ t ∈ ts, ∀ u ∈ ts, ¬ t = u → nestSepB t u = true ∨ nestSepB u t = true) :
    dstsNoSrc ts := by
  intro t ht u hu
  by_cases he : t = u
  · subst he
    exact (hall t ht).sepDS
  · rcases hor t ht u hu he with h | h
    · exact (nestSepB_spec h).2.2.2.1
    · exact (nestSepB_spec h).2.2.2.2.2.1

theorem dstsPW_of_nest {ts : List Task}
    (hpw : List.Pairwise (fun t u => nestSepB u t = true) ts) : dstsPW ts := by
  refine hpw.imp ?_
  intro t u h
  obtain ⟨n1, n2, n3, n4, n5, n6, n7⟩ := nestSepB_spec h
  exact ⟨n3, n2⟩

/-- C2 (amended): for a configuration whose addition pass derives a task list
in which every source exists with the declared type under real-directory
ancestors, destinations are two levels deep, unoccupied, and never
path-prefix-related to any other task's source or destination, no source is an
ancestor of an earlier-processed source (nested declarations, with the
ancestor processed later in the addition pass, are allowed), whose removal
declarations rebuild exactly the same task list at the post-addition state,
and with every confirmation answered yes, running `apply_additions` and then
`apply_removals` succeeds and restores a filesystem with exactly the original
nodes at every path. -/
theorem c2_amended (env : Env) (cfgA cfgR : Config) (fs0 : FS)
    (hask : ∀ a b, env.ask a b = true)
    (hready : ∀ t ∈ (buildAddTasks env fs0 cfgA).1, addReadyB fs0 t = true)
    (hnest : pairNestB (ssortBy ascBefore (buildAddTasks env fs0 cfgA).1) = true)
    (hrem : (buildRemTasks env
        (addAllExplicit (ssortBy descBefore (buildAddTasks env fs0 cfgA).1) fs0) cfgR).1
      = (buildAddTasks env fs0 cfgA).1) :
    ∃ s, roundTrip env cfgA cfgR fs0 = .ok s ∧
      ∀ k, lookupFS s.fs k = lookupFS fs0 k := by
  have hpwA := pairNestB_pairwise _ hnest
  have hpermA : (ssortBy ascBefore (buildAddTasks env fs0 cfgA).1).Perm
      (buildAddTasks env fs0 cfgA).1 := perm_ssortBy _ _
  have hpermD : (ssortBy descBefore (buildAddTasks env fs0 cfgA).1).Perm
      (buildAddTasks env fs0 cfgA).1 := perm_ssortBy _ _
  have hallT : ∀ t ∈ (buildAddTasks env fs0 cfgA).1, AddReady fs0 t ∧ 2 ≤ (sC t).length :=
    fun t ht => addReadyB_spec _ _ (hready t ht)
  have hcanon : ∀ t ∈ (buildAddTasks env fs0 cfgA).1, canonB t.src = true :=
    fun t ht => (hallT t ht).1.srcCanon
  have hndA : (ssortBy ascBefore (buildAddTasks env fs0 cfgA).1).Nodup :=
    hpwA.imp (fun h => nestSepB_ne h)
  have hsortA := sorted_asc_ssort (buildAddTasks env fs0 cfgA).1
  have hsortD := sorted_desc_ssort (buildAddTasks env fs0 cfgA).1
  have hdich : ∀ t ∈ (buildAddTasks env fs0 cfgA).1, ∀ u ∈ (buildAddTasks env fs0 cfgA).1,
      ¬ t = u → (nestSepB t u = true ∧ lenSrc t ≤ lenSrc u) ∨
        (nestSepB u t = true ∧ lenSrc u ≤ lenSrc t) :=
    fun t ht u hu hne => pairwise_forall_or (hpwA.and hsortA) t (hpermA.mem_iff.mpr ht)
      u (hpermA.mem_iff.mpr hu) hne
  have htieT : ∀ t ∈ (buildAddTasks env fs0 cfgA).1, ∀ u ∈ (buildAddTasks env fs0 cfgA).1,
      ¬ t = u → lenSrc t = lenSrc u → sepB t u = true := by
    intro t ht u hu hne hl
    rcases hdich t ht u hu hne with ⟨h, _⟩ | ⟨h, _⟩
    · exact tie_full_sep (hcanon t ht) (hcanon u hu) hl h
    · exact sepB_comm (tie_full_sep (hcanon u hu) (hcanon t ht) hl.symm h)
  have hnestT : ∀ t ∈ (buildAddTasks env fs0 cfgA).1, ∀ u ∈ (buildAddTasks env fs0 cfgA).1,
      ¬ t = u → lenSrc t ≤ lenSrc u → nestSepB t u = true := by
    intro t ht u hu hne hle
    rcases hdich t ht u hu hne with ⟨h, _⟩ | ⟨h, hle2⟩
    · exact h
    · exact sepB_to_nest (htieT t ht u hu hne (Nat.le_antisymm hle hle2))
  have hndT : (buildAddTasks env fs0 cfgA).1.Nodup := hpermA.nodup_iff.mp hndA
  have hndD : (ssortBy descBefore (buildAddTasks env fs0 cfgA).1).Nodup :=
    hpermD.nodup_iff.mpr hndT
  have hpwDflip : List.Pairwise (fun t u => nestSepB u t = true)
      (ssortBy descBefore (buildAddTasks env fs0 cfgA).1) := by
    have h1 := hsortD.and hndD
    refine h1.imp_of_mem ?_
    intro a b ha hb hab
    exact hnestT b (hpermD.mem_iff.mp hb) a (hpermD.mem_iff.mp ha)
      (fun he => hab.2 he.symm) hab.1
  have hallD : ∀ t ∈ ssortBy descBefore (buildAddTasks env fs0 cfgA).1, AddReady fs0 t :=
    fun t ht => (hallT t (hpermD.mem_iff.mp ht)).1
  have hadd := runAdd env hask (ssortBy descBefore (buildAddTasks env fs0 cfgA).1) fs0
    (buildAddTasks env fs0 cfgA).2 hallD hpwDflip
  have hinv1 := lookup_addAll (ssortBy descBefore (buildAddTasks env fs0 cfgA).1) fs0
    (fun t ht => (hallD t ht).dstFree)
    (dstsNoSrc_of_nest hallD (fun t ht u hu hne =>
      Or.imp (fun h => h.1) (fun h => h.1)
        (hdich t (hpermD.mem_iff.mp ht) u (hpermD.mem_iff.mp hu) hne)))
    (dstsPW_of_nest hpwDflip)
  have hpermRA : (ssortBy descBefore (buildAddTasks env fs0 cfgA).1).reverse.Perm
      (ssortBy ascBefore (buildAddTasks env fs0 cfgA).1) :=
    ((List.reverse_perm _).trans hpermD).trans hpermA.symm
  have hndR : (ssortBy descBefore (buildAddTasks env fs0 cfgA).1).reverse.Nodup := by
    rw [List.nodup_reverse]
    exact hndD
  have hsortR : List.Pairwise (fun t u => lenSrc t ≤ lenSrc u)
      (ssortBy descBefore (buildAddTasks env fs0 cfgA).1).reverse := by
    rw [List.pairwise_reverse]
    exact hsortD
  have htieR : ∀ t ∈ (ssortBy descBefore (buildAddTasks env fs0 cfgA).1).reverse,
      ∀ u ∈ (ssortBy descBefore (buildAddTasks env fs0 cfgA).1).reverse,
      ¬ t = u → lenSrc t = lenSrc u → sepB t u = true := by
    intro t ht u hu hne hl
    rw [List.mem_reverse] at ht hu
    exact htieT t (hpermD.mem_iff.mp ht) u (hpermD.mem_iff.mp hu) hne hl
  have hinv2 : ∀ k,
      lookupFS (addAllExplicit (ssortBy descBefore (buildAddTasks env fs0 cfgA).1) fs0) k
      = lookAddR fs0 (ssortBy ascBefore (buildAddTasks env fs0 cfgA).1) k :=
    fun k => (hinv1 k).trans
      (lookAddR_sorted_perm fs0 _ _ hpermRA hndR hsortR hsortA htieR k)
  have hallA : ∀ u ∈ ssortBy ascBefore (buildAddTasks env fs0 cfgA).1,
      AddReady fs0 u ∧ 2 ≤ (sC u).length :=
    fun u hu => hallT u (hpermA.mem_iff.mp hu)
  obtain ⟨Sf, hrun, hfin⟩ := runRem env fs0 hask
    (ssortBy ascBefore (buildAddTasks env fs0 cfgA).1)
    (addAllExplicit (ssortBy descBefore (buildAddTasks env fs0 cfgA).1) fs0)
    (buildRemTasks env
      (addAllExplicit (ssortBy descBefore (buildAddTasks env fs0 cfgA).1) fs0) cfgR).2
    hallA hpwA hinv2
  refine ⟨⟨Sf, (buildRemTasks env
      (addAllExplicit (ssortBy descBefore (buildAddTasks env fs0 cfgA).1) fs0) cfgR).2 ++
      (ssortBy ascBefore (buildAddTasks env fs0 cfgA).1).map
        (fun t => Report.linkRemoved t.src t.dst)⟩, ?_, hfin⟩
  unfold roundTrip
  rw [show apply_additions env cfgA fs0 =
      .ok ⟨addAllExplicit (ssortBy descBefore (buildAddTasks env fs0 cfgA).1) fs0,
        (buildAddTasks env fs0 cfgA).2 ++
          (ssortBy descBefore (buildAddTasks env fs0 cfgA).1).map
            (fun t => Report.linkCreated t.src t.dst)⟩ from hadd]
  dsimp only
  show runTasks (remStep env)
      ⟨addAllExplicit (ssortBy descBefore (buildAddTasks env fs0 cfgA).1) fs0,
        (buildRemTasks env
          (addAllExplicit (ssortBy descBefore (buildAddTasks env fs0 cfgA).1) fs0) cfgR).2⟩
      (ssortBy ascBefore (buildRemTasks env
        (addAllExplicit (ssortBy descBefore (buildAddTasks env fs0 cfgA).1) fs0) cfgR).1) = _
  rw [hrem]
  exact hrun

theorem c2_amended_witness :
    (∀ t ∈ (buildAddTasks envY fsNest cfgNestA).1, addReadyB fsNest t = true) ∧
    (pairNestB (ssortBy ascBefore (buildAddTasks envY fsNest cfgNestA).1) = true) ∧
    (∃ s, roundTrip envY cfgNestA cfgNestR fsNest = .ok s ∧
      ∀ k, lookupFS s.fs k = lookupFS fsNest k) :=
  ⟨by decide, by decide,
   c2_amended envY cfgNestA cfgNestR fsNest (fun a b => rfl) (by decide) (by decide)
     (by decide)⟩

theorem sepB_ne {t u : Task} (h : sepB t u = true) : t ≠ u := by
  intro he
  obtain ⟨s1, _⟩ := sepB_spec h
  rw [he, compsLe_refl] at s1
  exact Bool.noConfusion s1

theorem linked_facts (fs0 S : FS) (rs : List Task)
    (hall : ∀ u ∈ rs, AddReady fs0 u ∧ 2 ≤ (sC u).length)
    (hpw : List.Pairwise (fun t u => sepB t u = true) rs)
    (hinv : ∀ k, lookupFS S k = lookAddR fs0 rs k) :
    ∀ t ∈ rs, canonB t.src = true ∧ PrefixesDir S (sC t) ∧
      lookupFS S (sC t) = some (.symlink t.dst) := by
  intro t ht
  have hnd : rs.Nodup := hpw.imp (fun h => sepB_ne h)
  have hperm : rs.Perm (t :: rs.erase t) := List.perm_cons_erase ht
  have hsepNe := pairwise_sep_forall hpw
  have hinvP : ∀ k, lookupFS S k = lookAddR fs0 (t :: rs.erase t) k :=
    fun k => (hinv k).trans (lookAddR_perm fs0 _ _ hperm hsepNe k)
  have hsepHead : ∀ v ∈ rs.erase t, sepB t v = true := by
    intro v hv
    have hv2 := (List.Nodup.mem_erase_iff hnd).mp hv
    exact hsepNe t ht v hv2.2 (fun he => hv2.1 he.symm)
  have hrr := remReady_head fs0 S t (rs.erase t) (hall t ht).1 (hall t ht).2
    (fun v hv => sepB_to_nest (hsepHead v hv)) hinvP
  exact ⟨hrr.srcCanon, hrr.srcDirs, hrr.srcLink⟩

theorem addStep_already (env : Env) (fs : FS) (log : List Report) (t : Task)
    (hc : canonB t.src = true) (hd : PrefixesDir fs (sC t))
    (hl : lookupFS fs (sC t) = some (.symlink t.dst)) :
    addStep env ⟨fs, log⟩ t = .ok ⟨fs, log ++ [.alreadyLinked t.src t.dst]⟩ := by
  unfold addStep
  dsimp only
  rw [islink_pre_sym fs t.src t.dst hc hd hl]
  simp only [if_pos]
  rw [readlink_pre_sym fs t.src t.dst hc hd hl]
  simp only [beq_self_eq_true, if_pos]
  rfl

theorem runAlready (env : Env) : ∀ (ts : List Task) (fs : FS) (log : List Report),
    (∀ t ∈ ts, canonB t.src = true ∧ PrefixesDir fs (sC t) ∧
      lookupFS fs (sC t) = some (.symlink t.dst)) →
    runTasks (addStep env) ⟨fs, log⟩ ts =
      .ok ⟨fs, log ++ ts.map (fun t => Report.alreadyLinked t.src t.dst)⟩ := by
  intro ts
  induction ts with
  | nil =>
    intro fs log _
    rw [runTasks_nil]
    simp
  | cons t rest ih =>
    intro fs log hall
    have ht := hall t (List.mem_cons_self _ _)
    rw [runTasks_cons, addStep_already env fs log t ht.1 ht.2.1 ht.2.2]
    dsimp only
    rw [ih fs _ (fun v hv => hall v (List.mem_cons_of_mem _ hv))]
    simp

/-- C3 (amended): if the addition pass's task list has every source present with
the declared type under real-directory ancestors and destinations free and
pairwise independent, every confirmation is answered yes, and the configuration
rebuilds the same task list at the post-addition state, then running
`apply_additions` a second time succeeds, leaves the filesystem exactly as it
was after the first run, and logs one already-configured skip per task. -/
theorem c3_amended (env : Env) (cfgA : Config) (fs0 : FS)
    (hask : ∀ a b, env.ask a b = true)
    (hready : ∀ t ∈ (buildAddTasks env fs0 cfgA).1, addReadyB fs0 t = true)
    (hsep : pairSepB (buildAddTasks env fs0 cfgA).1 = true)
    (hsame : (buildAddTasks env
        (addAllExplicit (ssortBy descBefore (buildAddTasks env fs0 cfgA).1) fs0) cfgA).1
      = (buildAddTasks env fs0 cfgA).1) :
    ∃ s1, apply_additions env cfgA fs0 = .ok s1 ∧
      apply_additions env cfgA s1.fs =
        .ok ⟨s1.fs, (buildAddTasks env s1.fs cfgA).2 ++
          (ssortBy descBefore (buildAddTasks env fs0 cfgA).1).map
            (fun t => Report.alreadyLinked t.src t.dst)⟩ := by
  have hpwT := pairSepB_pairwise _ hsep
  have hallT : ∀ t ∈ (buildAddTasks env fs0 cfgA).1, AddReady fs0 t ∧ 2 ≤ (sC t).length :=
    fun t ht => addReadyB_spec _ _ (hready t ht)
  have hpermD : (ssortBy descBefore (buildAddTasks env fs0 cfgA).1).Perm
      (buildAddTasks env fs0 cfgA).1 := perm_ssortBy _ _
  have hpwD := (List.Perm.pairwise_iff (fun hxy => sepB_comm hxy) hpermD).mpr hpwT
  have hallD : ∀ t ∈ ssortBy descBefore (buildAddTasks env fs0 cfgA).1, AddReady fs0 t :=
    fun t ht => (hallT t (hpermD.mem_iff.mp ht)).1
  have hadd := runAdd env hask (ssortBy descBefore (buildAddTasks env fs0 cfgA).1) fs0
    (buildAddTasks env fs0 cfgA).2 hallD (hpwD.imp (fun h => sepB_to_nest2 h))
  have hsepNe := pairwise_sep_forall hpwT
  have hsepNeD : ∀ t ∈ ssortBy descBefore (buildAddTasks env fs0 cfgA).1,
      ∀ u ∈ ssortBy descBefore (buildAddTasks env fs0 cfgA).1, ¬ t = u → sepB t u = true :=
    fun t ht u hu hne => hsepNe t (hpermD.mem_iff.mp ht) u (hpermD.mem_iff.mp hu) hne
  have hinv1 := lookup_addAll (ssortBy descBefore (buildAddTasks env fs0 cfgA).1) fs0
    (fun t ht => (hallD t ht).dstFree)
    (dstsNoSrc_of_ready hallD hsepNeD)
    (dstsPW_of_pairwise hpwD)
  have hpermR : (ssortBy descBefore (buildAddTasks env fs0 cfgA).1).reverse.Perm
      (buildAddTasks env fs0 cfgA).1 :=
    (List.reverse_perm _).trans hpermD
  have hpwR := (List.Perm.pairwise_iff (fun hxy => sepB_comm hxy) hpermR).mpr hpwT
  have hallR : ∀ u ∈ (ssortBy descBefore (buildAddTasks env fs0 cfgA).1).reverse,
      AddReady fs0 u ∧ 2 ≤ (sC u).length :=
    fun u hu => hallT u (hpermR.mem_iff.mp hu)
  have hfacts := linked_facts fs0
    (addAllExplicit (ssortBy descBefore (buildAddTasks env fs0 cfgA).1) fs0)
    (ssortBy descBefore (buildAddTasks env fs0 cfgA).1).reverse hallR hpwR hinv1
  have hfactsD : ∀ t ∈ ssortBy descBefore (buildAddTasks env fs0 cfgA).1,
      canonB t.src = true ∧
      PrefixesDir (addAllExplicit (ssortBy descBefore (buildAddTasks env fs0 cfgA).1) fs0)
        (sC t) ∧
      lookupFS (addAllExplicit (ssortBy descBefore (buildAddTasks env fs0 cfgA).1) fs0)
        (sC t) = some (.symlink t.dst) :=
    fun t ht => hfacts t (List.mem_reverse.mpr ht)
  refine ⟨⟨addAllExplicit (ssortBy descBefore (buildAddTasks env fs0 cfgA).1) fs0,
      (buildAddTasks env fs0 cfgA).2 ++
        (ssortBy descBefore (buildAddTasks env fs0 cfgA).1).map
          (fun t => Report.linkCreated t.src t.dst)⟩, hadd, ?_⟩
  show runTasks (addStep env)
      ⟨addAllExplicit (ssortBy descBefore (buildAddTasks env fs0 cfgA).1) fs0,
        (buildAddTasks env
          (addAllExplicit (ssortBy descBefore (buildAddTasks env fs0 cfgA).1) fs0) cfgA).2⟩
      (ssortBy descBefore (buildAddTasks env
        (addAllExplicit (ssortBy descBefore (buildAddTasks env fs0 cfgA).1) fs0) cfgA).1) = _
  rw [hsame]
  exact runAlready env _ _ _ hfactsD

theorem c3_amended_witness :
    (pairSepB (buildAddTasks envY fsC3 cfgAddA).1 = true) ∧
    (∃ s1, apply_additions envY cfgAddA fsC3 = .ok s1 ∧
      apply_additions envY cfgAddA s1.fs =
        .ok ⟨s1.fs, (buildAddTasks envY s1.fs cfgAddA).2 ++
          (ssortBy descBefore (buildAddTasks envY fsC3 cfgAddA).1).map
            (fun t => Report.alreadyLinked t.src t.dst)⟩) :=
  ⟨by decide,
   c3_amended envY cfgAddA fsC3 (fun a b => rfl) (by decide) (by decide) (by decide)⟩

end SymlinkMgr
